import Mathlib

/-!
SingleLinkedList: a shallow embedding of `single-linked-list.h`

The C++ container keeps a value-less sentinel `head_` inside the list object and a
chain of heap nodes hanging off `head_.next_node`, together with a `size_t` counter
`size_`.  The embedding keeps exactly these three ingredients:

* a heap of `Node` cells, addressed by natural numbers (`new` takes the next unused
  address, `delete` empties the cell);
* pointers `Ptr` (`nullptr`, `&head_`, or the address of a heap node);
* the list object, holding `head_.next_node` and `size_`.

`size_t` arithmetic is arithmetic modulo `2 ^ 64`.  Dereferencing `nullptr`, the
sentinel's value or a deleted node is undefined behaviour and is an outcome of its own.

The comparison operators call `std::equal` and `std::lexicographical_compare`; their loops
are written out as the C++ standard specifies them, over the element type's `operator==`
and `operator<`, which are parameters.  The copy constructor reads a member `next_node`
of the element type (through `BasicIterator::operator->`); that test is a parameter too.
Loops over the heap take a budget of iterations (`fuel`).
-/

namespace SingleLinkedList

/-! ## Memory model -/

/-- A `Node*`: `nullptr`, the address of the sentinel `head_` of the list at hand, or the
address of a node allocated with `new`. -/
inductive Ptr where
  | null : Ptr
  | head : Ptr
  | node : Nat → Ptr
  deriving DecidableEq, Repr

/-- The `struct Node` of the source: a value and the link to the next node. -/
structure Node (α : Type) where
  value : α
  next_node : Ptr
  deriving DecidableEq, Repr

/-- The free store: cell `a` is `some n` while the node at address `a` is alive and
`none` once it has been deleted. -/
abbrev Heap (α : Type) := List (Option (Node α))

end SingleLinkedList

/-- The data members of the class `SingleLinkedList`: the link `head_.next_node` of the
sentinel (whose own `value` is never read) and the counter `size_`. -/
structure SingleLinkedList where
  head_next : SingleLinkedList.Ptr
  size_ : Nat
  deriving DecidableEq, Repr

namespace SingleLinkedList

/-- The class `BasicIterator`: a wrapper around one `Node*`. -/
structure BasicIterator where
  node_ : Ptr
  deriving DecidableEq, Repr

/-- The only exception type thrown by the container. -/
inductive Exn where
  | invalid_argument : Exn
  deriving DecidableEq, Repr

/-- How a call ends: it returns `r` leaving state `s`; an exception leaves the function
with the state `s`; `std::terminate` is called; the behaviour is undefined; or the
loop budget of the model is exhausted. -/
inductive Result (σ ρ : Type) where
  | ok : σ → ρ → Result σ ρ
  | throw : σ → Exn → Result σ ρ
  | terminate : Result σ ρ
  | ub : Result σ ρ
  | outOfFuel : Result σ ρ
  deriving DecidableEq, Repr

/-- The effect of the `noexcept` specifier: an exception that would leave the function
calls `std::terminate` instead. -/
def noexcept {σ ρ : Type} : Result σ ρ → Result σ ρ
  | Result.throw _ _ => Result.terminate
  | r => r

/-- Width of `size_t`. -/
def SIZE_MOD : Nat := 2 ^ 64

/-- The operation `++size_` on a `size_t`. -/
def incSize (n : Nat) : Nat := (n + 1) % SIZE_MOD

/-- The operation `--size_` on a `size_t`. -/
def decSize (n : Nat) : Nat := (n + SIZE_MOD - 1) % SIZE_MOD

/-- Reads `p->next_node`; `none` when `p` is null or dangling. -/
def getNext {α : Type} (h : Heap α) (l : SingleLinkedList) : Ptr → Option Ptr
  | Ptr.null => none
  | Ptr.head => some l.head_next
  | Ptr.node a =>
    match h[a]? with
    | some (some n) => some n.next_node
    | _ => none

/-- Executes `p->next_node = q`; `none` when `p` is null or dangling. -/
def setNext {α : Type} (h : Heap α) (l : SingleLinkedList) (p q : Ptr) :
    Option (Heap α × SingleLinkedList) :=
  match p with
  | Ptr.null => none
  | Ptr.head => some (h, { l with head_next := q })
  | Ptr.node a =>
    match h[a]? with
    | some (some n) => some (h.set a (some { n with next_node := q }), l)
    | _ => none

/-- Reads `p->value`; `none` when `p` is null, dangling, or the value-less sentinel. -/
def getValue {α : Type} (h : Heap α) : Ptr → Option α
  | Ptr.node a =>
    match h[a]? with
    | some (some n) => some n.value
    | _ => none
  | _ => none

/-- The expression `new Node(value, next)`: the node is placed at the next unused
address. -/
def newNode {α : Type} (h : Heap α) (value : α) (next : Ptr) : Heap α × Ptr :=
  (h ++ [some ⟨value, next⟩], Ptr.node h.length)

/-- The statement `delete p` for a non-null `p`; `none` when `p` is not a live heap node. -/
def deleteNode {α : Type} (h : Heap α) : Ptr → Option (Heap α)
  | Ptr.node a =>
    match h[a]? with
    | some (some _) => some (h.set a none)
    | _ => none
  | _ => none

/-! ## Iterators -/

/-- Member `begin()`. -/
def begin (l : SingleLinkedList) : BasicIterator := ⟨l.head_next⟩

/-- Member `end()`: the iterator on `nullptr`. -/
def end_ : BasicIterator := ⟨Ptr.null⟩

/-- Member `before_begin()`: the iterator on `&head_`. -/
def before_begin : BasicIterator := ⟨Ptr.head⟩

/-- Iterator `operator==`. -/
def BasicIterator.eq (a b : BasicIterator) : Bool := decide (a.node_ = b.node_)

/-- Iterator `operator!=`, written in the source as the negation of `==`. -/
def BasicIterator.ne (a b : BasicIterator) : Bool := !(decide (a.node_ = b.node_))

/-- Iterator pre-increment `operator++`. -/
def BasicIterator.next {α : Type} (h : Heap α) (l : SingleLinkedList) (it : BasicIterator) :
    Option BasicIterator :=
  (getNext h l it.node_).map BasicIterator.mk

/-- Iterator `operator*`. -/
def BasicIterator.deref {α : Type} (h : Heap α) (it : BasicIterator) : Option α :=
  getValue h it.node_

/-- The loop `for (it = first; it != end(); ++it) out.push_back(*it);` run for at most
`fuel` tests of the loop condition.  `none` when a step is undefined or the budget is
exhausted. -/
def iterFrom {α : Type} (h : Heap α) (l : SingleLinkedList) : Nat → BasicIterator → Option (List α)
  | 0, _ => none
  | fuel + 1, it =>
    if it.ne end_ then
      match it.deref h, it.next h l with
      | some v, some it1 => (iterFrom h l fuel it1).map (fun vs => v :: vs)
      | _, _ => none
    else some []

/-- Iteration of the whole list from `begin()` to `end()`. -/
def toList {α : Type} (fuel : Nat) (h : Heap α) (l : SingleLinkedList) : Option (List α) :=
  iterFrom h l fuel (begin l)

/-! ## Constructors, queries and mutators -/

/-- The default constructor `SingleLinkedList() : size_(0)`; `head_.next_node` is
`nullptr` by the default member initializer of `Node`. -/
def mkEmpty : SingleLinkedList := ⟨Ptr.null, 0⟩

/-- Method `GetSize`. -/
def GetSize (l : SingleLinkedList) : Nat := l.size_

/-- Method `IsEmpty`. -/
def IsEmpty (l : SingleLinkedList) : Bool := decide (l.size_ = 0)

/-- Method `PushFront`. -/
def PushFront {α : Type} (h : Heap α) (l : SingleLinkedList) (value : α) :
    Heap α × SingleLinkedList :=
  let (h1, p) := newNode h value l.head_next
  (h1, { head_next := p, size_ := incSize l.size_ })

/-- The initializer-list constructor: delegates to the default constructor and pushes
the values front-wise, walking the input from `rbegin` to `rend`. -/
def fromInitList {α : Type} (h : Heap α) (values : List α) : Heap α × SingleLinkedList :=
  values.reverse.foldl (fun s v => PushFront s.1 s.2 v) (h, mkEmpty)

/-- Method `PopFront` (`noexcept`; it has no `throw`). -/
def PopFront {α : Type} (h : Heap α) (l : SingleLinkedList) :
    Result (Heap α × SingleLinkedList) Unit :=
  let node := l.head_next
  match getNext h l node with
  | none => Result.ub
  | some nx =>
    let l1 : SingleLinkedList := { l with head_next := nx }
    let l2 : SingleLinkedList := { l1 with size_ := decSize l1.size_ }
    match deleteNode h node with
    | none => Result.ub
    | some h1 => Result.ok (h1, l2) ()

/-- Method `InsertAfter`. -/
def InsertAfter {α : Type} (h : Heap α) (l : SingleLinkedList) (pos : BasicIterator) (value : α) :
    Result (Heap α × SingleLinkedList) BasicIterator :=
  if pos.eq end_ then Result.throw (h, l) Exn.invalid_argument
  else
    let node := pos.node_
    match getNext h l node with
    | none => Result.ub
    | some nx =>
      let (h1, p) := newNode h value nx
      match setNext h1 l node p with
      | none => Result.ub
      | some (h2, l2) =>
        let l3 : SingleLinkedList := { l2 with size_ := incSize l2.size_ }
        match getNext h2 l3 node with
        | none => Result.ub
        | some r => Result.ok (h2, l3) ⟨r⟩

/-- The body of `EraseAfter`, before the `noexcept` specifier is taken into account. -/
def EraseAfterBody {α : Type} (h : Heap α) (l : SingleLinkedList) (pos : BasicIterator) :
    Result (Heap α × SingleLinkedList) BasicIterator :=
  if pos.eq end_ then Result.throw (h, l) Exn.invalid_argument
  else
    match getNext h l pos.node_ with
    | none => Result.ub
    | some p_node =>
      match getNext h l p_node with
      | none => Result.ub
      | some nx =>
        match setNext h l pos.node_ nx with
        | none => Result.ub
        | some (h1, l1) =>
          let l2 : SingleLinkedList := { l1 with size_ := decSize l1.size_ }
          match deleteNode h1 p_node with
          | none => Result.ub
          | some h2 =>
            match getNext h2 l2 pos.node_ with
            | none => Result.ub
            | some r => Result.ok (h2, l2) ⟨r⟩

/-- Method `EraseAfter`, declared `noexcept`. -/
def EraseAfter {α : Type} (h : Heap α) (l : SingleLinkedList) (pos : BasicIterator) :
    Result (Heap α × SingleLinkedList) BasicIterator :=
  noexcept (EraseAfterBody h l pos)

/-- The loop of `Clear`, run for at most `fuel` tests of its condition:
`while (head_.next_node != nullptr) { node = exchange(head_.next_node,
head_.next_node->next_node); delete node; }`.  The member `size_` is not written. -/
def Clear {α : Type} : Nat → Heap α → SingleLinkedList → Result (Heap α × SingleLinkedList) Unit
  | 0, _, _ => Result.outOfFuel
  | fuel + 1, h, l =>
    if l.head_next ≠ Ptr.null then
      match getNext h l l.head_next with
      | none => Result.ub
      | some nx =>
        let node := l.head_next
        let l1 : SingleLinkedList := { l with head_next := nx }
        match deleteNode h node with
        | none => Result.ub
        | some h1 => Clear fuel h1 l1
    else Result.ok (h, l) ()

/-- Member `swap`: exchanges `size_` and `head_.next_node` of the two objects. -/
def swap (a b : SingleLinkedList) : SingleLinkedList × SingleLinkedList :=
  (⟨b.head_next, b.size_⟩, ⟨a.head_next, a.size_⟩)

/-- Applies iterator `operator++` `k` times. -/
def advance {α : Type} (h : Heap α) (l : SingleLinkedList) :
    Nat → BasicIterator → Option BasicIterator
  | 0, it => some it
  | k + 1, it => (it.next h l).bind (advance h l k)

/-! ## Representation predicate

`Seg h p ns q` says that following `next_node` from `p` one meets exactly the live nodes
whose addresses and values are listed in `ns`, and then arrives at `q`. -/

/-- A linked segment of live heap nodes from `p` up to (excluding) `q`. -/
def Seg {α : Type} (h : Heap α) : Ptr → List (Nat × α) → Ptr → Prop
  | p, [], q => p = q
  | p, (a, x) :: ns, q => p = Ptr.node a ∧ ∃ nx, h[a]? = some (some ⟨x, nx⟩) ∧ Seg h nx ns q

/-- A null-terminated chain. -/
def Chain {α : Type} (h : Heap α) (p : Ptr) (ns : List (Nat × α)) : Prop :=
  Seg h p ns Ptr.null

/-- The shape of the position reached from `before_begin()` by `k` increments: the
sentinel for `k = 0`, the `k`-th node of the chain otherwise. -/
def PosAt {α : Type} (ns : List (Nat × α)) : Nat → Ptr → Prop
  | 0, p => p = Ptr.head
  | k + 1, p => ∃ n, ns[k]? = some n ∧ p = Ptr.node n.1

/-! ## Value-semantics operations: swap, comparison, copy -/

/-- The free function `swap(lhs, rhs)`, whose body is `lhs.swap(rhs)`. -/
def free_swap (lhs rhs : SingleLinkedList) : SingleLinkedList × SingleLinkedList :=
  swap lhs rhs

/-- Sequencing of two calls: the second runs in the state and with the value the first
returned; any other outcome of the first is the outcome of the whole, an exception
keeping (the image under `g` of) the state at its throw. -/
def Result.andThen {σ ρ σ2 ρ2 : Type} (r : Result σ ρ) (g : σ → σ2)
    (f : σ → ρ → Result σ2 ρ2) : Result σ2 ρ2 :=
  match r with
  | Result.ok s x => f s x
  | Result.throw s e => Result.throw (g s) e
  | Result.terminate => Result.terminate
  | Result.ub => Result.ub
  | Result.outOfFuel => Result.outOfFuel

/-- The standard algorithm `std::equal(first1, last1, first2, last2)` on forward
iterators, with `last1 = last2 = end()`, run for at most `fuel` tests of its condition:
`for (; first1 != last1 && first2 != last2; ++first1, ++first2)
   if (!(*first1 == *first2)) return false;
 return first1 == last1 && first2 == last2;`
The parameter `eq` is the `operator==` of the element type; `a` and `b` are the lists
the two iterators walk. -/
def equalLoop {α : Type} (eq : α → α → Bool) (h : Heap α) (a b : SingleLinkedList) :
    Nat → BasicIterator → BasicIterator → Option Bool
  | 0, _, _ => none
  | fuel + 1, it1, it2 =>
    if it1.ne end_ && it2.ne end_ then
      match it1.deref h, it2.deref h with
      | some v1, some v2 =>
        if eq v1 v2 then
          match it1.next h a, it2.next h b with
          | some n1, some n2 => equalLoop eq h a b fuel n1 n2
          | _, _ => none
        else some false
      | _, _ => none
    else some (it1.eq end_ && it2.eq end_)

/-- The member `operator==`: `if (size_ != rhs.size_) return false;` and then
`std::equal(begin(), end(), rhs.begin(), rhs.end())`. -/
def operator_eq {α : Type} (eq : α → α → Bool) (fuel : Nat) (h : Heap α)
    (this rhs : SingleLinkedList) : Option Bool :=
  if this.size_ ≠ rhs.size_ then some false
  else equalLoop eq h this rhs fuel (begin this) (begin rhs)

/-- The member `operator!=`: `return !(rhs == *this);`. -/
def operator_ne {α : Type} (eq : α → α → Bool) (fuel : Nat) (h : Heap α)
    (this rhs : SingleLinkedList) : Option Bool :=
  (operator_eq eq fuel h rhs this).map (fun r => !r)

/-- The standard algorithm `std::lexicographical_compare(first1, last1, first2, last2)`
with `last1 = last2 = end()`, run for at most `fuel` tests of its condition:
`for (; first1 != last1 && first2 != last2; ++first1, ++first2) {
   if (*first1 < *first2) return true;
   if (*first2 < *first1) return false; }
 return first1 == last1 && first2 != last2;`
The parameter `lt` is the `operator<` of the element type. -/
def lexLoop {α : Type} (lt : α → α → Bool) (h : Heap α) (a b : SingleLinkedList) :
    Nat → BasicIterator → BasicIterator → Option Bool
  | 0, _, _ => none
  | fuel + 1, it1, it2 =>
    if it1.ne end_ && it2.ne end_ then
      match it1.deref h, it2.deref h with
      | some v1, some v2 =>
        if lt v1 v2 then some true
        else if lt v2 v1 then some false
        else
          match it1.next h a, it2.next h b with
          | some n1, some n2 => lexLoop lt h a b fuel n1 n2
          | _, _ => none
      | _, _ => none
    else some (it1.eq end_ && it2.ne end_)

/-- The member `operator<`:
`std::lexicographical_compare(begin(), end(), rhs.begin(), rhs.end())`. -/
def operator_lt {α : Type} (lt : α → α → Bool) (fuel : Nat) (h : Heap α)
    (this rhs : SingleLinkedList) : Option Bool :=
  lexLoop lt h this rhs fuel (begin this) (begin rhs)

/-- The member `operator>`: `return rhs < *this;`. -/
def operator_gt {α : Type} (lt : α → α → Bool) (fuel : Nat) (h : Heap α)
    (this rhs : SingleLinkedList) : Option Bool :=
  operator_lt lt fuel h rhs this

/-- The member `operator<=`: `return !(rhs < *this);`. -/
def operator_le {α : Type} (lt : α → α → Bool) (fuel : Nat) (h : Heap α)
    (this rhs : SingleLinkedList) : Option Bool :=
  (operator_lt lt fuel h rhs this).map (fun r => !r)

/-- The member `operator>=`: `return !(*this < rhs);`. -/
def operator_ge {α : Type} (lt : α → α → Bool) (fuel : Nat) (h : Heap α)
    (this rhs : SingleLinkedList) : Option Bool :=
  (operator_lt lt fuel h this rhs).map (fun r => !r)

/-- Executes `p->value = v` on a heap node; `none` when `p` is null, dangling or the
sentinel. -/
def setValue {α : Type} (h : Heap α) (p : Ptr) (v : α) : Option (Heap α) :=
  match p with
  | Ptr.node a =>
    match h[a]? with
    | some (some n) => some (h.set a (some { n with value := v }))
    | _ => none
  | _ => none

/-- The `while` loop of the copy constructor, run for at most `fuel` tests of its
condition:
`while (it_other != other.end()) {
   it_tail->value = *it_other;
   it_tail->next_node = it_other->next_node != nullptr ? new Node() : nullptr;
   it_tail = it_tail->next_node;
   ++it_other; }`
In `it_other->next_node` the arrow is `BasicIterator::operator->`, which returns
`&(node_->value)`: the member tested is the member `next_node` of the *element* under
`it_other`, not the link of its node.  The parameter `elemNext` is that test,
`value.next_node != nullptr`, which the element type has to supply.  `loc` is the local
list `single_linked_list`; `new Node()` value-initialises the node. -/
def CopyLoop {α : Type} [Inhabited α] (elemNext : α → Bool) (other : SingleLinkedList) :
    Nat → Heap α → SingleLinkedList → BasicIterator → Ptr →
      Result (Heap α × SingleLinkedList) Unit
  | 0, _, _, _, _ => Result.outOfFuel
  | fuel + 1, h, loc, it_other, it_tail =>
    if it_other.ne end_ then
      match it_other.deref h with
      | none => Result.ub
      | some v =>
        match setValue h it_tail v with
        | none => Result.ub
        | some h1 =>
          match it_other.deref h1 with
          | none => Result.ub
          | some w =>
            let hq : Heap α × Ptr :=
              if elemNext w then newNode h1 default Ptr.null else (h1, Ptr.null)
            match setNext hq.1 loc it_tail hq.2 with
            | none => Result.ub
            | some (h3, loc1) =>
              match getNext h3 loc1 it_tail with
              | none => Result.ub
              | some t =>
                match it_other.next h3 other with
                | none => Result.ub
                | some it1 => CopyLoop elemNext other fuel h3 loc1 it1 t
    else Result.ok (h, loc) ()

/-- The copy constructor `SingleLinkedList(const SingleLinkedList& other)`.  The object
under construction starts with `head_.next_node == nullptr` and an uninitialised `size_`
(the parameter `indeterminate`).  For an `other` with `IsEmpty()` it sets `size_ = 0`.
Otherwise it builds the chain on the local `single_linked_list` (whose `size_` is 0 and is
not written by the loop), swaps with it, and the local is destroyed on leaving the scope
(the destructor runs `Clear`). -/
def CopyCtor {α : Type} [Inhabited α] (elemNext : α → Bool) (indeterminate : Nat)
    (fuel : Nat) (h : Heap α) (other : SingleLinkedList) : Result (Heap α) SingleLinkedList :=
  if IsEmpty other then Result.ok h ⟨Ptr.null, 0⟩
  else
    let it_other := begin other
    let single_linked_list := mkEmpty
    let hp : Heap α × Ptr := newNode h default Ptr.null
    let loc : SingleLinkedList := { single_linked_list with head_next := hp.2 }
    (CopyLoop elemNext other fuel hp.1 loc it_other hp.2).andThen Prod.fst
      (fun s _ =>
        let sw := swap ⟨Ptr.null, indeterminate⟩ s.2
        (Clear fuel s.1 sw.2).andThen Prod.fst (fun s2 _ => Result.ok s2.1 sw.1))

/-- The copy assignment `operator=`: `SingleLinkedList single_linked_list(rhs);
swap(single_linked_list); return *this;`, after which the local (now holding the old
chain of `*this`) is destroyed.  The result is the new `*this`. -/
def operator_assign {α : Type} [Inhabited α] (elemNext : α → Bool) (indeterminate : Nat)
    (fuel : Nat) (h : Heap α) (this rhs : SingleLinkedList) :
    Result (Heap α) SingleLinkedList :=
  (CopyCtor elemNext indeterminate fuel h rhs).andThen id
    (fun h1 single_linked_list =>
      let sw := swap this single_linked_list
      (Clear fuel h1 sw.2).andThen Prod.fst (fun s2 _ => Result.ok s2.1 sw.1))

/-! ## Specification-side notions used by the comparison claims -/

/-- Elementwise equality of two sequences under the element equality `eq`: same length
and `eq` true at every index. -/
def ElementwiseEq {α : Type} (eq : α → α → Bool) (xs ys : List α) : Prop :=
  xs.length = ys.length
    ∧ ∀ (i : Nat) (x y : α), xs[i]? = some x → ys[i]? = some y → eq x y = true

/-- Lexicographic "less" in the words of the specification: `xs` is a proper prefix of
`ys`, or at the first index where they differ the element of `xs` is less. -/
def LexLess {α : Type} (lt : α → α → Bool) (xs ys : List α) : Prop :=
  (xs.length < ys.length ∧ ys.take xs.length = xs)
    ∨ ∃ (i : Nat) (x y : α), xs[i]? = some x ∧ ys[i]? = some y ∧ xs.take i = ys.take i
        ∧ x ≠ y ∧ lt x y = true

/-- What the `std::equal` loop computes, read on the two value sequences. -/
def equalList {α : Type} (eq : α → α → Bool) : List α → List α → Bool
  | [], [] => true
  | x :: xs, y :: ys => if eq x y then equalList eq xs ys else false
  | _, _ => false

/-- What the `std::lexicographical_compare` loop computes, read on the two value
sequences. -/
def lexList {α : Type} (lt : α → α → Bool) : List α → List α → Bool
  | [], [] => false
  | [], _ :: _ => true
  | _ :: _, [] => false
  | x :: xs, y :: ys =>
    if lt x y then true else if lt y x then false else lexList lt xs ys

/-- Two lists built one after the other by the initializer-list constructor: the heap
holding both, the first list, the second list. -/
def twoLists {α : Type} (h : Heap α) (S1 S2 : List α) :
    Heap α × SingleLinkedList × SingleLinkedList :=
  ((fromInitList (fromInitList h S1).1 S2).1, (fromInitList h S1).2,
    (fromInitList (fromInitList h S1).1 S2).2)

/-- Lexicographic "less" as `std::lexicographical_compare` decides it for any element
`operator<`: two elements count as equivalent when neither is less than the other; `xs` is
less than `ys` when `xs` is shorter and all its elements are equivalent to those of `ys` at
the same index, or when at the first index where one element is less than the other the
element of `xs` is less. -/
def LexLessEquiv {α : Type} (lt : α → α → Bool) (xs ys : List α) : Prop :=
  (xs.length < ys.length
      ∧ ∀ (i : Nat) (x y : α), xs[i]? = some x → ys[i]? = some y →
          lt x y = false ∧ lt y x = false)
    ∨ ∃ (i : Nat) (x y : α), xs[i]? = some x ∧ ys[i]? = some y
        ∧ (∀ (j : Nat) (u w : α), j < i → xs[j]? = some u → ys[j]? = some w →
            lt u w = false ∧ lt w u = false)
        ∧ lt x y = true

/-- A strict ordering that is not total: pairs of numbers compared by their first
component only (`a.key < b.key`). -/
def keyLt (x y : Nat × Nat) : Bool := decide (x.1 < y.1)

/-- The `operator<` of `Nat` as an element type. -/
def natLt (x y : Nat) : Bool := decide (x < y)

/-- The `operator==` of `Nat` as an element type. -/
def natEq (x y : Nat) : Bool := decide (x = y)

/-! ## Example states used by the witnesses -/

/-- The list `{1, 2, 3}` built by the initializer-list constructor in an empty heap. -/
def ex123 : Heap Nat × SingleLinkedList := fromInitList [] [1, 2, 3]

/-- The list `{1}` built by the initializer-list constructor in an empty heap. -/
def ex1 : Heap Nat × SingleLinkedList := fromInitList [] [1]

/-- The empty list made by the default constructor, in an empty heap. -/
def ex0 : Heap Nat × SingleLinkedList := ([], mkEmpty)

/-- An element type the copy constructor can be instantiated with: a payload and a
member named `next_node`. -/
structure Elem where
  v : Nat
  next_node : Ptr
  deriving DecidableEq, Repr

/-- Value-initialisation of an `Elem`: zero payload, null `next_node`. -/
instance instInhabitedElem : Inhabited Elem := ⟨⟨0, Ptr.null⟩⟩

/-- The test `value.next_node != nullptr` on an `Elem`. -/
def Elem.hasNext (e : Elem) : Bool := decide (e.next_node ≠ Ptr.null)

/-- The `operator==` of `Elem`: memberwise equality. -/
def elemEq (x y : Elem) : Bool := decide (x = y)

/-- The element `E{1, nullptr}`. -/
def elemA : Elem := ⟨1, Ptr.null⟩

/-- The element `E{2, q}` with `q` a non-null pointer (to an object outside the lists). -/
def elemB : Elem := ⟨2, Ptr.node 1000⟩

/-- The element `E{5, nullptr}`. -/
def elemC : Elem := ⟨5, Ptr.null⟩

/-- The list `{elemA}` built by the initializer-list constructor in an empty heap. -/
def exA : Heap Elem × SingleLinkedList := fromInitList [] [elemA]

/-- The list `{elemB}` built by the initializer-list constructor in an empty heap. -/
def exB : Heap Elem × SingleLinkedList := fromInitList [] [elemB]

/-- The list `{elemA, elemA}` built by the initializer-list constructor in an empty heap. -/
def exAA : Heap Elem × SingleLinkedList := fromInitList [] [elemA, elemA]

/-- The list `{elemB, elemA}` built by the initializer-list constructor in an empty heap:
the member `next_node` of each element is null exactly at the last node. -/
def exBA : Heap Elem × SingleLinkedList := fromInitList [] [elemB, elemA]

/-- The lists `a = {elemC}` and `b = {elemA}` in one heap. -/
def exCA : Heap Elem × SingleLinkedList × SingleLinkedList := twoLists [] [elemC] [elemA]

/-! ## Lemmas on segments -/

theorem seg_append {α : Type} (h : Heap α) (ns1 ns2 : List (Nat × α)) (p q : Ptr) :
    Seg h p (ns1 ++ ns2) q ↔ ∃ m, Seg h p ns1 m ∧ Seg h m ns2 q := by
  induction ns1 generalizing p with
  | nil => simp [Seg]
  | cons n ns1 ih =>
    obtain ⟨a, x⟩ := n
    constructor
    · rintro ⟨hp, nx, hc, hrest⟩
      obtain ⟨m, h1, h2⟩ := (ih nx).1 hrest
      exact ⟨m, ⟨hp, nx, hc, h1⟩, h2⟩
    · rintro ⟨m, ⟨hp, nx, hc, h1⟩, h2⟩
      exact ⟨hp, nx, hc, (ih nx).2 ⟨m, h1, h2⟩⟩

theorem seg_addr_lt {α : Type} {h : Heap α} {ns : List (Nat × α)} {p q : Ptr}
    (hs : Seg h p ns q) : ∀ a ∈ ns.map Prod.fst, a < h.length := by
  induction ns generalizing p with
  | nil => simp
  | cons n ns ih =>
    obtain ⟨a, x⟩ := n
    obtain ⟨_, nx, hc, hrest⟩ := hs
    intro b hb
    simp only [List.map_cons, List.mem_cons] at hb
    rcases hb with rfl | hb
    · by_contra hlt
      rw [List.getElem?_eq_none (by omega)] at hc
      cases hc
    · exact ih hrest b hb

theorem seg_heap_append {α : Type} {h : Heap α} {ns : List (Nat × α)} {p q : Ptr}
    (c : Heap α) (hs : Seg h p ns q) : Seg (h ++ c) p ns q := by
  induction ns generalizing p with
  | nil => exact hs
  | cons n ns ih =>
    obtain ⟨a, x⟩ := n
    obtain ⟨hp, nx, hc, hrest⟩ := hs
    refine ⟨hp, nx, ?_, ih hrest⟩
    have hlt : a < h.length := by
      by_contra hlt
      rw [List.getElem?_eq_none (by omega)] at hc
      cases hc
    rw [List.getElem?_append_left hlt]
    exact hc

theorem seg_heap_set {α : Type} {h : Heap α} {ns : List (Nat × α)} {p q : Ptr}
    (b : Nat) (c : Option (Node α)) (hb : b ∉ ns.map Prod.fst) (hs : Seg h p ns q) :
    Seg (h.set b c) p ns q := by
  induction ns generalizing p with
  | nil => exact hs
  | cons n ns ih =>
    obtain ⟨a, x⟩ := n
    obtain ⟨hp, nx, hc, hrest⟩ := hs
    simp only [List.map_cons, List.mem_cons, not_or] at hb
    refine ⟨hp, nx, ?_, ih hb.2 hrest⟩
    rw [List.getElem?_set_ne (fun e => hb.1 e)]
    exact hc

theorem chain_unique {α : Type} {h : Heap α} {p : Ptr} {ns1 ns2 : List (Nat × α)}
    (h1 : Chain h p ns1) (h2 : Chain h p ns2) : ns1 = ns2 := by
  induction ns1 generalizing p ns2 with
  | nil =>
    cases ns2 with
    | nil => rfl
    | cons n ns2 =>
      obtain ⟨a, x⟩ := n
      obtain ⟨hp, _⟩ := h2
      have : p = Ptr.null := h1
      rw [this] at hp
      cases hp
  | cons n ns1 ih =>
    obtain ⟨a, x⟩ := n
    obtain ⟨hp, nx, hc, hrest⟩ := h1
    cases ns2 with
    | nil =>
      have : p = Ptr.null := h2
      rw [this] at hp
      cases hp
    | cons n2 ns2 =>
      obtain ⟨a2, x2⟩ := n2
      obtain ⟨hp2, nx2, hc2, hrest2⟩ := h2
      rw [hp] at hp2
      cases hp2
      rw [hc] at hc2
      cases hc2
      rw [ih hrest hrest2]

theorem chain_nodup {α : Type} {h : Heap α} {p : Ptr} {ns : List (Nat × α)}
    (hc : Chain h p ns) : (ns.map Prod.fst).Nodup := by
  induction ns generalizing p with
  | nil => simp
  | cons n ns ih =>
    obtain ⟨a, x⟩ := n
    obtain ⟨hp, nx, hcell, hrest⟩ := hc
    simp only [List.map_cons, List.nodup_cons]
    refine ⟨?_, ih hrest⟩
    intro hmem
    obtain ⟨⟨a2, y⟩, hin, ha⟩ := List.mem_map.1 hmem
    simp only at ha
    subst ha
    obtain ⟨l1, l2, hsplit⟩ := List.append_of_mem hin
    have hrest2 : Chain h nx (l1 ++ (a2, y) :: l2) := hsplit ▸ hrest
    obtain ⟨m, _, hm⟩ := (seg_append h l1 ((a2, y) :: l2) nx Ptr.null).1 hrest2
    obtain ⟨_, nx2, hcell2, htail⟩ := hm
    rw [hcell] at hcell2
    cases hcell2
    have := chain_unique hrest2 htail
    have hlen := congrArg List.length this
    simp at hlen
    omega

/-! ## Iteration and segments -/

theorem iterFrom_of_chain {α : Type} {h : Heap α} (l : SingleLinkedList)
    {ns : List (Nat × α)} {p : Ptr} (hc : Chain h p ns) (fuel : Nat) (hf : ns.length < fuel) :
    iterFrom h l fuel ⟨p⟩ = some (ns.map Prod.snd) := by
  induction ns generalizing p fuel with
  | nil =>
    have hp : p = Ptr.null := hc
    subst hp
    obtain ⟨f, rfl⟩ : ∃ f, fuel = f + 1 := ⟨fuel - 1, by simp at hf; omega⟩
    simp [iterFrom, BasicIterator.ne, end_]
  | cons n ns ih =>
    obtain ⟨a, x⟩ := n
    obtain ⟨hp, nx, hcell, hrest⟩ := hc
    subst hp
    obtain ⟨f, rfl⟩ : ∃ f, fuel = f + 1 := ⟨fuel - 1, by omega⟩
    have hf2 : ns.length < f := by simp at hf; omega
    simp [iterFrom, BasicIterator.ne, end_, BasicIterator.deref, BasicIterator.next,
      getValue, getNext, hcell, ih hrest f hf2]

theorem chain_of_iterFrom {α : Type} {h : Heap α} {l : SingleLinkedList} {fuel : Nat} {p : Ptr}
    {xs : List α} (hi : iterFrom h l fuel ⟨p⟩ = some xs) :
    ∃ ns, Chain h p ns ∧ ns.map Prod.snd = xs := by
  induction fuel generalizing p xs with
  | zero => simp [iterFrom] at hi
  | succ f ih =>
    cases p with
    | null =>
      simp [iterFrom, BasicIterator.ne, end_] at hi
      subst hi
      exact ⟨[], rfl, rfl⟩
    | head =>
      simp [iterFrom, BasicIterator.ne, end_, BasicIterator.deref, getValue] at hi
    | node a =>
      cases hcell : h[a]? with
      | none =>
        simp [iterFrom, BasicIterator.ne, end_, BasicIterator.deref, getValue, hcell] at hi
      | some c =>
        cases c with
        | none =>
          simp [iterFrom, BasicIterator.ne, end_, BasicIterator.deref, getValue, hcell] at hi
        | some n =>
          simp [iterFrom, BasicIterator.ne, end_, BasicIterator.deref, getValue,
            BasicIterator.next, getNext, hcell] at hi
          obtain ⟨vs, hvs, rfl⟩ := hi
          obtain ⟨ns, hns, rfl⟩ := ih hvs
          exact ⟨(a, n.value) :: ns, ⟨rfl, n.next_node, hcell, hns⟩, rfl⟩

theorem advance_seg {α : Type} {h : Heap α} (l : SingleLinkedList) {ns : List (Nat × α)} {p q : Ptr}
    (hs : Seg h p ns q) : advance h l ns.length ⟨p⟩ = some ⟨q⟩ := by
  induction ns generalizing p with
  | nil =>
    have hp : p = q := hs
    subst hp
    rfl
  | cons n ns ih =>
    obtain ⟨a, x⟩ := n
    obtain ⟨hp, nx, hcell, hrest⟩ := hs
    subst hp
    simp [advance, BasicIterator.next, getNext, hcell, ih hrest]

theorem split_at {α : Type} {h : Heap α} {p : Ptr} {ns : List (Nat × α)} (k : Nat)
    (hc : Chain h p ns) : ∃ m, Seg h p (ns.take k) m ∧ Chain h m (ns.drop k) := by
  have hc2 : Chain h p (ns.take k ++ ns.drop k) := by rw [List.take_append_drop]; exact hc
  exact (seg_append h _ _ p Ptr.null).1 hc2

theorem advance_posAt {α : Type} {h : Heap α} {l : SingleLinkedList} {ns : List (Nat × α)} {k : Nat}
    {p : BasicIterator} (hc : Chain h l.head_next ns) (hk : k ≤ ns.length)
    (ha : advance h l k before_begin = some p) : PosAt ns k p.node_ := by
  cases k with
  | zero =>
    simp [advance] at ha
    subst ha
    rfl
  | succ k =>
    have hlt : k < ns.length := hk
    obtain ⟨m, h1, h2⟩ := split_at k hc
    have hlen : (ns.take k).length = k := by simp; omega
    have hadv := advance_seg l h1
    rw [hlen] at hadv
    simp only [advance, BasicIterator.next, before_begin, getNext, Option.map_some',
      Option.some_bind] at ha
    rw [hadv] at ha
    cases ha
    rw [List.drop_eq_getElem_cons hlt] at h2
    obtain ⟨hm, _⟩ := h2
    exact ⟨ns[k], by simp [hlt], hm⟩

/-! ## PushFront and the initializer-list constructor -/

theorem PushFront_chain {α : Type} {h : Heap α} {l : SingleLinkedList} {ns : List (Nat × α)} (x : α)
    (hc : Chain h l.head_next ns) :
    Chain (PushFront h l x).1 (PushFront h l x).2.head_next ((h.length, x) :: ns) := by
  refine ⟨rfl, l.head_next, ?_, seg_heap_append _ hc⟩
  simp [PushFront, newNode]

theorem incSize_of_lt {n : Nat} (hn : n + 1 < SIZE_MOD) : incSize n = n + 1 :=
  Nat.mod_eq_of_lt hn

theorem decSize_of_pos {n : Nat} (h0 : 0 < n) (hn : n < SIZE_MOD) : decSize n + 1 = n := by
  unfold decSize
  have h1 : n + SIZE_MOD - 1 = (n - 1) + SIZE_MOD := by omega
  rw [h1, Nat.add_mod_right, Nat.mod_eq_of_lt (by omega)]
  omega

theorem foldl_PushFront {α : Type} (vs : List α) (h : Heap α) (l : SingleLinkedList)
    (ns : List (Nat × α)) (hc : Chain h l.head_next ns) :
    ∃ ms, Chain (vs.foldl (fun s v => PushFront s.1 s.2 v) (h, l)).1
        (vs.foldl (fun s v => PushFront s.1 s.2 v) (h, l)).2.head_next (ms ++ ns)
      ∧ ms.map Prod.snd = vs.reverse
      ∧ (l.size_ + vs.length < SIZE_MOD →
          (vs.foldl (fun s v => PushFront s.1 s.2 v) (h, l)).2.size_ = l.size_ + vs.length) := by
  induction vs generalizing h l ns with
  | nil => exact ⟨[], hc, rfl, fun _ => rfl⟩
  | cons v vs ih =>
    obtain ⟨ms, h1, h2, h3⟩ := ih (PushFront h l v).1 (PushFront h l v).2
      ((h.length, v) :: ns) (PushFront_chain v hc)
    refine ⟨ms ++ [(h.length, v)], ?_, ?_, ?_⟩
    · simpa [List.foldl] using h1
    · simp [h2]
    · intro hlt
      simp only [List.length_cons] at hlt
      have hs : (PushFront h l v).2.size_ = l.size_ + 1 := by
        simp only [PushFront, newNode]
        exact incSize_of_lt (by omega)
      simp only [List.foldl, List.length_cons]
      rw [h3 (by rw [hs]; omega), hs]
      omega

/-- C1: for every finite sequence `S` (of a length a `size_t` can hold), the list built by
the initializer-list constructor iterates from `begin()` to `end()` yielding exactly `S`
in order (for every loop budget above the length of `S`), and `GetSize()` is the length
of `S`. -/
theorem C1_init_list_iterates_input {α : Type} (h : Heap α) (S : List α)
    (hlen : S.length < SIZE_MOD) :
    (∀ fuel, S.length < fuel →
        toList fuel (fromInitList h S).1 (fromInitList h S).2 = some S)
      ∧ GetSize (fromInitList h S).2 = S.length := by
  obtain ⟨ms, h1, h2, h3⟩ := foldl_PushFront S.reverse h mkEmpty [] rfl
  rw [List.append_nil] at h1
  rw [List.reverse_reverse] at h2
  constructor
  · intro fuel hf
    have := iterFrom_of_chain (fromInitList h S).2 h1 fuel
      (by rw [← List.length_map ms Prod.snd, h2]; exact hf)
    rw [h2] at this
    exact this
  · have := h3 (by simpa [mkEmpty] using hlen)
    simpa [mkEmpty, GetSize, fromInitList] using this

/-- Witness for C1 at the input `[1, 2, 3]` in an empty heap. -/
theorem C1_init_list_iterates_input_witness :
    [1, 2, 3].length < SIZE_MOD ∧
    ((∀ fuel, [1, 2, 3].length < fuel →
        toList fuel (fromInitList ([] : Heap Nat) [1, 2, 3]).1
          (fromInitList ([] : Heap Nat) [1, 2, 3]).2 = some [1, 2, 3])
      ∧ GetSize (fromInitList ([] : Heap Nat) [1, 2, 3]).2 = [1, 2, 3].length) :=
  ⟨by decide, C1_init_list_iterates_input [] [1, 2, 3] (by decide)⟩

/-- C2: for every list whose iteration yields `xs` and every value `x`, after
`PushFront(x)` the iteration yields `x` followed by `xs`, and `GetSize()` is the prior
`GetSize()` plus one (the counter being below the largest `size_t`). -/
theorem C2_push_front {α : Type} (h : Heap α) (l : SingleLinkedList) (x : α) (xs : List α)
    (fuel : Nat) (hit : toList fuel h l = some xs) (hsz : GetSize l + 1 < SIZE_MOD) :
    (∀ n, xs.length + 1 < n →
        toList n (PushFront h l x).1 (PushFront h l x).2 = some (x :: xs))
      ∧ GetSize (PushFront h l x).2 = GetSize l + 1 := by
  obtain ⟨ns, hc, rfl⟩ := chain_of_iterFrom hit
  constructor
  · intro n hn
    have := iterFrom_of_chain (PushFront h l x).2 (PushFront_chain x hc) n
      (by simpa using hn)
    simpa using this
  · simp only [PushFront, newNode, GetSize]
    exact incSize_of_lt hsz

/-- Witness for C2: `PushFront(0)` on the list `[1, 2, 3]`. -/
theorem C2_push_front_witness :
    toList 4 ex123.1 ex123.2 = some [1, 2, 3] ∧ GetSize ex123.2 + 1 < SIZE_MOD
      ∧ (∀ n, [1, 2, 3].length + 1 < n →
          toList n (PushFront ex123.1 ex123.2 0).1 (PushFront ex123.1 ex123.2 0).2
            = some [0, 1, 2, 3])
      ∧ GetSize (PushFront ex123.1 ex123.2 0).2 = GetSize ex123.2 + 1 :=
  ⟨by decide, by decide,
    C2_push_front ex123.1 ex123.2 0 [1, 2, 3] 4 (by decide) (by decide)⟩

/-! ## Positions inside a chain -/

theorem getNext_congr {α : Type} (h : Heap α) {l l2 : SingleLinkedList} (p : Ptr)
    (e : l2.head_next = l.head_next) : getNext h l2 p = getNext h l p := by
  cases p <;> simp [getNext, e]

theorem posAt_next {α : Type} {h : Heap α} {l : SingleLinkedList} {ns : List (Nat × α)} {k : Nat}
    {p : Ptr} (hc : Chain h l.head_next ns) (hk : k ≤ ns.length) (hp : PosAt ns k p) :
    ∃ m, getNext h l p = some m ∧ Chain h m (ns.drop k) ∧ p ≠ Ptr.null := by
  cases k with
  | zero =>
    have e : p = Ptr.head := hp
    subst e
    exact ⟨l.head_next, rfl, by simpa using hc, by simp⟩
  | succ k =>
    obtain ⟨n, hn, e⟩ := hp
    subst e
    have hlt : k < ns.length := hk
    obtain ⟨m, _, h2⟩ := split_at k hc
    rw [List.drop_eq_getElem_cons hlt] at h2
    have hnk : ns[k] = n := by
      rw [List.getElem?_eq_getElem hlt] at hn
      exact Option.some.inj hn
    rw [hnk] at h2
    obtain ⟨_, nx, hcell, hrest⟩ := h2
    exact ⟨nx, by simp [getNext, hcell], hrest, by simp⟩

theorem posAt_addr_mem {α : Type} {ns : List (Nat × α)} {k : Nat} {a : Nat}
    (hp : PosAt ns k (Ptr.node a)) : a ∈ (ns.take k).map Prod.fst := by
  cases k with
  | zero => cases hp
  | succ k =>
    obtain ⟨n, hn, e⟩ := hp
    cases e
    have hlt : k < ns.length := by
      by_contra hge
      rw [List.getElem?_eq_none (by omega)] at hn
      cases hn
    rw [List.getElem?_eq_getElem hlt] at hn
    have hnk : ns[k] = n := Option.some.inj hn
    rw [List.take_succ, List.getElem?_eq_getElem hlt]
    simp [hnk]

theorem take_drop_disjoint {α : Type} {h : Heap α} {p : Ptr} {ns : List (Nat × α)} (k : Nat)
    (hc : Chain h p ns) :
    ∀ b ∈ (ns.take k).map Prod.fst, b ∉ (ns.drop k).map Prod.fst := by
  have hnd := chain_nodup hc
  rw [← List.take_append_drop k ns, List.map_append] at hnd
  intro b hb1 hb2
  exact (List.nodup_append.1 hnd).2.2 hb1 hb2

/-- Re-linking at a position: the statement `p->next_node = q`, executed at the position
`p` with `k` nodes up to and including it, makes the list the first `k` nodes followed by
the chain that starts at `q`. -/
theorem setNext_at {α : Type} {h : Heap α} {l : SingleLinkedList} {ns ns2 : List (Nat × α)}
    {k : Nat} {p : Ptr} (q : Ptr) (hc : Chain h l.head_next ns) (hk : k ≤ ns.length)
    (hp : PosAt ns k p) (hq : Chain h q ns2)
    (hdisj : ∀ b ∈ (ns.take k).map Prod.fst, b ∉ ns2.map Prod.fst) :
    ∃ h2 l2, setNext h l p q = some (h2, l2) ∧ l2.size_ = l.size_
      ∧ getNext h2 l2 p = some q
      ∧ Chain h2 l2.head_next (ns.take k ++ ns2)
      ∧ (∀ b, b ∉ (ns.take k).map Prod.fst → h2[b]? = h[b]?) := by
  cases k with
  | zero =>
    have e : p = Ptr.head := hp
    subst e
    exact ⟨h, { l with head_next := q }, rfl, rfl, rfl, by simpa using hq, fun _ _ => rfl⟩
  | succ k =>
    have hmem : ∀ a, PosAt ns (k + 1) (Ptr.node a) → a ∈ (ns.take (k + 1)).map Prod.fst :=
      fun a ha => posAt_addr_mem ha
    obtain ⟨n, hn, e⟩ := hp
    subst e
    have hin := hmem n.1 ⟨n, hn, rfl⟩
    have hlt : k < ns.length := hk
    have hnk : ns[k] = n := by
      rw [List.getElem?_eq_getElem hlt] at hn
      exact Option.some.inj hn
    obtain ⟨m, h1, h2⟩ := split_at k hc
    have hd := take_drop_disjoint k hc
    rw [List.drop_eq_getElem_cons hlt, hnk] at h2 hd
    obtain ⟨hm, nx, hcell, _⟩ := h2
    subst hm
    have halt : n.1 < h.length := by
      by_contra hge
      rw [List.getElem?_eq_none (by omega)] at hcell
      cases hcell
    have hnotin : n.1 ∉ (ns.take k).map Prod.fst := by
      intro hb
      exact hd n.1 hb (by simp)
    refine ⟨h.set n.1 (some ⟨n.2, q⟩), l, ?_, rfl, ?_, ?_, ?_⟩
    · simp [setNext, hcell]
    · simp [getNext, List.getElem?_set_self halt]
    · rw [List.take_succ, List.getElem?_eq_getElem hlt, hnk]
      simp only [Option.toList, List.append_assoc, List.singleton_append]
      refine (seg_append _ _ _ _ _).2 ⟨Ptr.node n.1, seg_heap_set _ _ hnotin h1, rfl, q, ?_,
        seg_heap_set _ _ (hdisj n.1 hin) hq⟩
      simp [List.getElem?_set_self halt]
    · intro b hb
      rw [List.getElem?_set_ne]
      intro e
      exact hb (e ▸ hin)

/-! ## InsertAfter -/

/-- C3: for every list whose iteration yields `xs`, every position `p` reached from
`before_begin()` by `k ≤ |xs|` increments (the sentinel for `k = 0`, the `k`-th real node
otherwise) and every value `v`, `InsertAfter(p, v)` returns normally; the iteration then
yields the first `k` elements of `xs`, then `v`, then the rest of `xs`; `GetSize()` grows
by exactly one (the counter not being at the largest `size_t`); and the returned iterator
is on the newly allocated node, which is the successor of `p` and holds `v`. -/
theorem C3_insert_after {α : Type} (h : Heap α) (l : SingleLinkedList) (xs : List α) (fuel k : Nat)
    (p : BasicIterator) (v : α)
    (hit : toList fuel h l = some xs) (hk : k ≤ xs.length)
    (hpos : advance h l k before_begin = some p) (hsz : GetSize l + 1 < SIZE_MOD) :
    ∃ h2 l2 r, InsertAfter h l p v = Result.ok (h2, l2) r
      ∧ (∀ n, xs.length + 1 < n → toList n h2 l2 = some (xs.take k ++ v :: xs.drop k))
      ∧ GetSize l2 = GetSize l + 1
      ∧ r.node_ = Ptr.node h.length
      ∧ p.next h2 l2 = some r
      ∧ r.deref h2 = some v := by
  obtain ⟨ns, hc, rfl⟩ := chain_of_iterFrom hit
  rw [List.length_map] at hk
  have hp := advance_posAt hc hk hpos
  obtain ⟨m, hnext, hm, hpne⟩ := posAt_next hc hk hp
  -- the heap after `new Node(value, node->next_node)`
  have hc1 : Chain (h ++ [some ⟨v, m⟩]) l.head_next ns := seg_heap_append _ hc
  have hq : Chain (h ++ [some ⟨v, m⟩]) (Ptr.node h.length) ((h.length, v) :: ns.drop k) :=
    ⟨rfl, m, by simp, seg_heap_append _ hm⟩
  have hdisj : ∀ b ∈ (ns.take k).map Prod.fst,
      b ∉ ((h.length, v) :: ns.drop k).map Prod.fst := by
    intro b hb hb2
    simp only [List.map_cons, List.mem_cons] at hb2
    rcases hb2 with e | hb2
    · have hblt : b < h.length :=
        seg_addr_lt hc b (List.map_subset _ (List.take_subset k ns) hb)
      omega
    · exact take_drop_disjoint k hc b hb hb2
  obtain ⟨h2, l2, hset, hsize, hget, hchain, _⟩ := setNext_at _ hc1 hk hp hq hdisj
  have hget3 : getNext h2 { l2 with size_ := incSize l2.size_ } p.node_
      = some (Ptr.node h.length) := by
    have e1 : getNext h2 { l2 with size_ := incSize l2.size_ } p.node_
        = getNext h2 l2 p.node_ := getNext_congr _ p.node_ rfl
    rw [e1]
    exact hget
  have hpe : p.eq end_ = false := by
    simp only [BasicIterator.eq, end_, decide_eq_false_iff_not]
    exact hpne
  refine ⟨h2, { l2 with size_ := incSize l2.size_ }, ⟨Ptr.node h.length⟩, ?_, ?_, ?_, rfl,
    ?_, ?_⟩
  · simp only [InsertAfter, hpe, hnext, newNode, hset, hget3]
    rfl
  · intro n hn
    have := iterFrom_of_chain { l2 with size_ := incSize l2.size_ } hchain n
      (by simp only [List.length_append, List.length_take, List.length_cons,
            List.length_drop, List.length_map] at hn ⊢; omega)
    simpa [toList, begin, List.map_take, List.map_drop] using this
  · show incSize l2.size_ = l.size_ + 1
    rw [hsize]
    exact incSize_of_lt hsz
  · simp [BasicIterator.next, hget3]
  · obtain ⟨m2, _, hseg⟩ := (seg_append _ _ _ _ _).1 hchain
    obtain ⟨_, nx, hcell, _⟩ := hseg
    simp [BasicIterator.deref, getValue, hcell]

/-- Witness for C3: `InsertAfter(begin(), 10)` on `[1, 2, 3]`. -/
theorem C3_insert_after_witness :
    toList 4 ex123.1 ex123.2 = some [1, 2, 3] ∧ 1 ≤ [1, 2, 3].length
      ∧ advance ex123.1 ex123.2 1 before_begin = some (begin ex123.2)
      ∧ GetSize ex123.2 + 1 < SIZE_MOD
      ∧ ∃ h2 l2 r, InsertAfter ex123.1 ex123.2 (begin ex123.2) 10 = Result.ok (h2, l2) r
        ∧ (∀ n, [1, 2, 3].length + 1 < n → toList n h2 l2 = some [1, 10, 2, 3])
        ∧ GetSize l2 = GetSize ex123.2 + 1
        ∧ r.node_ = Ptr.node ex123.1.length
        ∧ (begin ex123.2).next h2 l2 = some r
        ∧ r.deref h2 = some 10 :=
  ⟨by decide, by decide, by decide, by decide,
    C3_insert_after ex123.1 ex123.2 [1, 2, 3] 4 1 (begin ex123.2) 10
      (by decide) (by decide) (by decide) (by decide)⟩

/-! ## EraseAfter -/

theorem getNext_set_ne {α : Type} (h : Heap α) (l : SingleLinkedList) (p : Ptr) (a : Nat)
    (c : Option (Node α)) (hne : p ≠ Ptr.node a) :
    getNext (h.set a c) l p = getNext h l p := by
  cases p with
  | null => rfl
  | head => rfl
  | node b =>
    have hab : a ≠ b := fun e => hne (e ▸ rfl)
    simp [getNext, List.getElem?_set_ne hab]

theorem chain_null_iff {α : Type} {h : Heap α} {p : Ptr} {ns : List (Nat × α)}
    (hc : Chain h p ns) : p = Ptr.null ↔ ns = [] := by
  cases ns with
  | nil => exact ⟨fun _ => rfl, fun _ => hc⟩
  | cons n ns =>
    obtain ⟨a, x⟩ := n
    obtain ⟨hp, _⟩ := hc
    subst hp
    simp

/-- The core of `EraseAfter` on a well-formed chain: at the position with `k < |ns|` nodes
up to and including it, the call returns normally, unlinks and deletes node `k`
(0-based), and returns the old successor `nx` of the deleted node. -/
theorem EraseAfterBody_chain {α : Type} {h : Heap α} {l : SingleLinkedList} {ns : List (Nat × α)}
    {k : Nat} {p : BasicIterator} (hc : Chain h l.head_next ns) (hk : k < ns.length)
    (hp : PosAt ns k p.node_) :
    ∃ h2 l2 nx, EraseAfterBody h l p = Result.ok (h2, l2) ⟨nx⟩
      ∧ l2.size_ = decSize l.size_
      ∧ Chain h2 l2.head_next (ns.take k ++ ns.drop (k + 1))
      ∧ getNext h2 l2 p.node_ = some nx
      ∧ Chain h nx (ns.drop (k + 1))
      ∧ Seg h l.head_next (ns.take (k + 1)) nx := by
  obtain ⟨m, hnext, hm, hpne⟩ := posAt_next hc (Nat.le_of_lt hk) hp
  have hd := take_drop_disjoint k hc
  have hnd := chain_nodup hm
  obtain ⟨a, x, hax⟩ : ∃ a x, ns[k] = (a, x) := ⟨ns[k].1, ns[k].2, rfl⟩
  have hsplit : ns.take (k + 1) = ns.take k ++ [(a, x)] := by
    rw [List.take_succ, List.getElem?_eq_getElem hk, hax]
    rfl
  rw [List.drop_eq_getElem_cons hk, hax] at hm hnd hd
  obtain ⟨hme, nx, hcell, hrest⟩ := hm
  subst hme
  have hnext2 : getNext h l (Ptr.node a) = some nx := by simp [getNext, hcell]
  have hdisj : ∀ b ∈ (ns.take k).map Prod.fst, b ∉ (ns.drop (k + 1)).map Prod.fst := by
    intro b hb hb2
    exact hd b hb (by simp only [List.map_cons, List.mem_cons]; exact Or.inr hb2)
  have ha1 : a ∉ (ns.take k).map Prod.fst := fun hb => hd _ hb (by simp)
  have ha2 : a ∉ (ns.drop (k + 1)).map Prod.fst := by
    simp only [List.map_cons, List.nodup_cons] at hnd
    exact hnd.1
  obtain ⟨h1, l1, hset, hsize, hget, hchain, hframe⟩ :=
    setNext_at nx hc (Nat.le_of_lt hk) hp hrest hdisj
  have hcell1 : h1[a]? = some (some ⟨x, nx⟩) := by rw [hframe _ ha1]; exact hcell
  have hdel : deleteNode h1 (Ptr.node a) = some (h1.set a none) := by
    simp [deleteNode, hcell1]
  have hpa : p.node_ ≠ Ptr.node a := by
    intro e
    rw [e] at hp
    exact ha1 (posAt_addr_mem hp)
  have hget2 : getNext (h1.set a none) { l1 with size_ := decSize l1.size_ } p.node_
      = some nx := by
    have e1 : getNext (h1.set a none) { l1 with size_ := decSize l1.size_ } p.node_
        = getNext (h1.set a none) l1 p.node_ := getNext_congr _ p.node_ rfl
    rw [e1, getNext_set_ne _ _ _ _ _ hpa]
    exact hget
  have hpe : p.eq end_ = false := by
    simp only [BasicIterator.eq, end_, decide_eq_false_iff_not]
    exact hpne
  have hseg : Seg h l.head_next (ns.take (k + 1)) nx := by
    obtain ⟨m2, s1, _⟩ := split_at k hc
    rw [hsplit]
    obtain ⟨m3, _, s3⟩ := split_at k hc
    rw [List.drop_eq_getElem_cons hk, hax] at s3
    obtain ⟨e3, nx3, hcell3, _⟩ := s3
    rw [hcell] at hcell3
    cases hcell3
    obtain ⟨m4, s4, s5⟩ := split_at k hc
    rw [List.drop_eq_getElem_cons hk, hax] at s5
    obtain ⟨e5, _⟩ := s5
    exact (seg_append _ _ _ _ _).2 ⟨m4, s4, e5, nx, hcell, rfl⟩
  refine ⟨h1.set a none, { l1 with size_ := decSize l1.size_ }, nx, ?_, ?_, ?_, hget2,
    hrest, hseg⟩
  · simp only [EraseAfterBody, hpe, hnext, hnext2, hset, hdel, hget2]
    rfl
  · show decSize l1.size_ = decSize l.size_
    rw [hsize]
  · refine seg_heap_set _ _ ?_ hchain
    simp only [List.map_append, List.mem_append, not_or]
    exact ⟨ha1, ha2⟩

/-- C4: for every list whose iteration yields `xs` and every position `p` reached from
`before_begin()` by `k < |xs|` increments (so `p` has a successor), `EraseAfter(p)`
returns normally; the iteration then yields `xs` without its element of 0-based index
`k`; `GetSize()` drops by exactly one (the counter being a non-zero `size_t`); and the
returned iterator is the successor of `p` in the new list, namely the position that
followed the erased node, which is `end()` exactly when `p` is now last. -/
theorem C4_erase_after {α : Type} (h : Heap α) (l : SingleLinkedList) (xs : List α) (fuel k : Nat)
    (p : BasicIterator)
    (hit : toList fuel h l = some xs) (hk : k < xs.length)
    (hpos : advance h l k before_begin = some p)
    (hsz : 0 < GetSize l) (hsz2 : GetSize l < SIZE_MOD) :
    ∃ h2 l2 r, EraseAfter h l p = Result.ok (h2, l2) r
      ∧ (∀ n, xs.length ≤ n → toList n h2 l2 = some (xs.eraseIdx k))
      ∧ GetSize l2 + 1 = GetSize l
      ∧ p.next h2 l2 = some r
      ∧ advance h l (k + 2) before_begin = some r
      ∧ (r = end_ ↔ k + 1 = xs.length) := by
  obtain ⟨ns, hc, rfl⟩ := chain_of_iterFrom hit
  rw [List.length_map] at hk
  have hp := advance_posAt hc (Nat.le_of_lt hk) hpos
  obtain ⟨h2, l2, nx, hres, hsize, hchain, hget, hrest, hseg⟩ := EraseAfterBody_chain hc hk hp
  refine ⟨h2, l2, ⟨nx⟩, ?_, ?_, ?_, ?_, ?_, ?_⟩
  · simp only [EraseAfter, hres, noexcept]
  · intro n hn
    have := iterFrom_of_chain l2 hchain n
      (by simp only [List.length_append, List.length_take, List.length_drop,
            List.length_map] at hn ⊢; omega)
    rw [List.eraseIdx_eq_take_drop_succ]
    simpa [toList, begin, List.map_take, List.map_drop] using this
  · show l2.size_ + 1 = l.size_
    rw [hsize]
    exact decSize_of_pos hsz hsz2
  · simp [BasicIterator.next, hget]
  · have hadv := advance_seg l hseg
    have hlen : (ns.take (k + 1)).length = k + 1 := by simp; omega
    rw [hlen] at hadv
    simpa [advance, BasicIterator.next, before_begin, getNext] using hadv
  · have hnull := chain_null_iff hrest
    constructor
    · intro e
      have e2 : nx = Ptr.null := congrArg BasicIterator.node_ e
      have hdrop := hnull.1 e2
      have hl := congrArg List.length hdrop
      simp only [List.length_drop, List.length_nil, List.length_map] at hl ⊢
      omega
    · intro e
      rw [List.length_map] at e
      have hdrop : ns.drop (k + 1) = [] := List.drop_eq_nil_of_le (by omega)
      rw [hnull.2 hdrop]
      rfl

/-- Witness for C4: `EraseAfter(begin())` on `[1, 2, 3]`. -/
theorem C4_erase_after_witness :
    toList 4 ex123.1 ex123.2 = some [1, 2, 3] ∧ 1 < [1, 2, 3].length
      ∧ advance ex123.1 ex123.2 1 before_begin = some (begin ex123.2)
      ∧ 0 < GetSize ex123.2 ∧ GetSize ex123.2 < SIZE_MOD
      ∧ ∃ h2 l2 r, EraseAfter ex123.1 ex123.2 (begin ex123.2) = Result.ok (h2, l2) r
        ∧ (∀ n, [1, 2, 3].length ≤ n → toList n h2 l2 = some [1, 3])
        ∧ GetSize l2 + 1 = GetSize ex123.2
        ∧ (begin ex123.2).next h2 l2 = some r
        ∧ advance ex123.1 ex123.2 3 before_begin = some r
        ∧ (r = end_ ↔ 1 + 1 = [1, 2, 3].length) :=
  ⟨by decide, by decide, by decide, by decide, by decide,
    C4_erase_after ex123.1 ex123.2 [1, 2, 3] 4 1 (begin ex123.2)
      (by decide) (by decide) (by decide) (by decide) (by decide)⟩

/-! ## PopFront against EraseAfter(before_begin()) -/

theorem getNext_head {α : Type} (h : Heap α) (l : SingleLinkedList) :
    getNext h l Ptr.head = some l.head_next := rfl

theorem setNext_head {α : Type} (h : Heap α) (l : SingleLinkedList) (q : Ptr) :
    setNext h l Ptr.head q = some (h, { l with head_next := q }) := rfl

theorem PopFront_of_EraseAfterBody {α : Type} {h : Heap α} {l : SingleLinkedList}
    {s : Heap α × SingleLinkedList} {r : BasicIterator}
    (he : EraseAfterBody h l before_begin = Result.ok s r) : PopFront h l = Result.ok s () := by
  unfold EraseAfterBody at he
  unfold PopFront
  simp only [before_begin, BasicIterator.eq, end_, getNext_head, setNext_head] at he
  cases hn : getNext h l l.head_next with
  | none => simp [hn] at he
  | some nx =>
    simp only [hn] at he ⊢
    cases hd : deleteNode h l.head_next with
    | none => simp [hd] at he
    | some h1 =>
      simp only [hd] at he ⊢
      simp at he
      rw [← he.1]

/-- C5: for every non-empty list (iteration `x :: xs`, counter a non-zero `size_t`),
`EraseAfter(before_begin())` and `PopFront()` both return normally and leave the very same
state: the first element is gone, the others keep their order, and the count has dropped
by one. -/
theorem C5_erase_after_before_begin_is_pop_front {α : Type} (h : Heap α)
    (l : SingleLinkedList) (x : α) (xs : List α) (fuel : Nat)
    (hit : toList fuel h l = some (x :: xs))
    (hsz : 0 < GetSize l) (hsz2 : GetSize l < SIZE_MOD) :
    ∃ h2 l2 r, EraseAfter h l before_begin = Result.ok (h2, l2) r
      ∧ PopFront h l = Result.ok (h2, l2) ()
      ∧ (∀ n, xs.length < n → toList n h2 l2 = some xs)
      ∧ GetSize l2 + 1 = GetSize l := by
  obtain ⟨ns, hc, hmap⟩ := chain_of_iterFrom hit
  have hk : 0 < ns.length := by
    have := congrArg List.length hmap
    simp only [List.length_map, List.length_cons] at this
    omega
  obtain ⟨h2, l2, nx, hres, hsize, hchain, _, _, _⟩ :=
    EraseAfterBody_chain (p := before_begin) hc hk rfl
  refine ⟨h2, l2, ⟨nx⟩, ?_, PopFront_of_EraseAfterBody hres, ?_, ?_⟩
  · simp only [EraseAfter, hres, noexcept]
  · intro n hn
    have hlen : ns.length = xs.length + 1 := by
      have := congrArg List.length hmap
      simpa using this
    have := iterFrom_of_chain l2 hchain n
      (by simp only [List.length_append, List.length_take, List.length_drop]; omega)
    have htl : (ns.drop 1).map Prod.snd = xs := by
      rw [List.map_drop, hmap]
      rfl
    rw [List.take_zero, List.nil_append, htl] at this
    exact this
  · show l2.size_ + 1 = l.size_
    rw [hsize]
    exact decSize_of_pos hsz hsz2

/-- Witness for C5: the list `[1, 2, 3]` becomes `[2, 3]` either way. -/
theorem C5_erase_after_before_begin_is_pop_front_witness :
    toList 4 ex123.1 ex123.2 = some (1 :: [2, 3])
      ∧ 0 < GetSize ex123.2 ∧ GetSize ex123.2 < SIZE_MOD
      ∧ ∃ h2 l2 r, EraseAfter ex123.1 ex123.2 before_begin = Result.ok (h2, l2) r
        ∧ PopFront ex123.1 ex123.2 = Result.ok (h2, l2) ()
        ∧ (∀ n, [2, 3].length < n → toList n h2 l2 = some [2, 3])
        ∧ GetSize l2 + 1 = GetSize ex123.2 :=
  ⟨by decide, by decide, by decide,
    C5_erase_after_before_begin_is_pop_front ex123.1 ex123.2 1 [2, 3] 4
      (by decide) (by decide) (by decide)⟩

/-! ## The checked error: a position equal to `end()` -/

/-- C6: for every list and every value `x`, `InsertAfter(end(), x)` throws
`std::invalid_argument`, and the state at the throw is the state before the call: the
heap and the list object (hence the iteration sequence and `GetSize()`) are unchanged. -/
theorem C6_insert_after_end_throws {α : Type} (h : Heap α) (l : SingleLinkedList) (x : α) :
    InsertAfter h l end_ x = Result.throw (h, l) Exn.invalid_argument := by
  simp [InsertAfter, BasicIterator.eq, end_]

/-- C7 (the code departs from the claim): for every list, the body of `EraseAfter(end())`
throws `std::invalid_argument` with the list untouched, but the method is declared
`noexcept`, so the exception never reaches the caller: `std::terminate` is called. -/
theorem C7_erase_after_end_terminates {α : Type} (h : Heap α) (l : SingleLinkedList) :
    EraseAfterBody h l end_ = Result.throw (h, l) Exn.invalid_argument
      ∧ EraseAfter h l end_ = Result.terminate := by
  have hb : EraseAfterBody h l end_ = Result.throw (h, l) Exn.invalid_argument := by
    simp [EraseAfterBody, BasicIterator.eq, end_]
  exact ⟨hb, by simp only [EraseAfter, hb, noexcept]⟩

/-! ## A position without a successor -/

/-- C8 as stated fails: on the one-element list `{1}`, `begin()` is not `end()` and has no
successor, yet `EraseAfter(begin())` throws nothing; the call runs into the read of
`next_node` through the null successor pointer.  The same holds for `before_begin()` of
the empty list. -/
theorem C8_counterexample :
    (begin ex1.2).ne end_ = true
      ∧ (begin ex1.2).next ex1.1 ex1.2 = some end_
      ∧ (¬ ∃ s e, EraseAfter ex1.1 ex1.2 (begin ex1.2) = Result.throw s e)
      ∧ EraseAfter ex1.1 ex1.2 (begin ex1.2) = Result.ub
      ∧ before_begin.next ex0.1 ex0.2 = some end_
      ∧ (¬ ∃ s e, EraseAfter ex0.1 ex0.2 before_begin = Result.throw s e)
      ∧ EraseAfter ex0.1 ex0.2 before_begin = Result.ub := by
  have h1 : EraseAfter ex1.1 ex1.2 (begin ex1.2) = Result.ub := by decide
  have h0 : EraseAfter ex0.1 ex0.2 before_begin = Result.ub := by decide
  refine ⟨by decide, by decide, ?_, h1, by decide, ?_, h0⟩
  · rintro ⟨s, e, hse⟩
    rw [h1] at hse
    cases hse
  · rintro ⟨s, e, hse⟩
    rw [h0] at hse
    cases hse

/-- C8, amended: for every list whose iteration yields `xs`, the position `p` reached from
`before_begin()` by `|xs|` increments (the last real node, or the sentinel of an empty
list) is not `end()` and its successor is `end()`; `EraseAfter(p)` makes no check for this
case and raises no error: it reads `next_node` through the null successor pointer, which is
undefined behaviour. -/
theorem C8_erase_after_last_is_unchecked {α : Type} (h : Heap α) (l : SingleLinkedList)
    (xs : List α) (fuel : Nat) (p : BasicIterator)
    (hit : toList fuel h l = some xs)
    (hpos : advance h l xs.length before_begin = some p) :
    p.ne end_ = true ∧ p.next h l = some end_ ∧ EraseAfter h l p = Result.ub := by
  obtain ⟨ns, hc, rfl⟩ := chain_of_iterFrom hit
  rw [List.length_map] at hpos
  have hp := advance_posAt hc (Nat.le_refl _) hpos
  obtain ⟨m, hnext, hm, hpne⟩ := posAt_next hc (Nat.le_refl _) hp
  rw [List.drop_length] at hm
  have hm0 : m = Ptr.null := hm
  subst hm0
  have hpe : decide (p.node_ = Ptr.null) = false := by
    simp only [decide_eq_false_iff_not]
    exact hpne
  refine ⟨?_, ?_, ?_⟩
  · simp [BasicIterator.ne, end_, hpe]
  · simp [BasicIterator.next, hnext, end_]
  · have hnull : getNext h l Ptr.null = none := rfl
    have hb : EraseAfterBody h l p = Result.ub := by
      unfold EraseAfterBody
      simp [BasicIterator.eq, end_, hpe, hnext, hnull]
    simp only [EraseAfter, hb, noexcept]

/-- Witness for the amended C8: `EraseAfter(begin())` on the one-element list `{1}`. -/
theorem C8_erase_after_last_is_unchecked_witness :
    toList 2 ex1.1 ex1.2 = some [1]
      ∧ advance ex1.1 ex1.2 [1].length before_begin = some (begin ex1.2)
      ∧ (begin ex1.2).ne end_ = true ∧ (begin ex1.2).next ex1.1 ex1.2 = some end_
      ∧ EraseAfter ex1.1 ex1.2 (begin ex1.2) = Result.ub :=
  ⟨by decide, by decide,
    C8_erase_after_last_is_unchecked ex1.1 ex1.2 [1] 2 (begin ex1.2) (by decide) (by decide)⟩

/-! ## Clear and the element count -/

/-- The method `Clear` on a well-formed chain: with a loop budget above the length it
returns normally, with `head_.next_node == nullptr` and the member `size_` as it was. -/
theorem Clear_chain {α : Type} {h : Heap α} {l : SingleLinkedList} {ns : List (Nat × α)}
    (hc : Chain h l.head_next ns) (fuel : Nat) (hf : ns.length < fuel) :
    ∃ h2, Clear fuel h l = Result.ok (h2, ⟨Ptr.null, l.size_⟩) () := by
  induction ns generalizing h l fuel with
  | nil =>
    obtain ⟨f, rfl⟩ : ∃ f, fuel = f + 1 := ⟨fuel - 1, by simp at hf; omega⟩
    have hnull : l.head_next = Ptr.null := hc
    refine ⟨h, ?_⟩
    simp only [Clear, hnull, ne_eq, not_true_eq_false, ↓reduceIte]
    rw [← hnull]
  | cons n ns ih =>
    obtain ⟨a, x⟩ := n
    have hnd := chain_nodup hc
    obtain ⟨hp, nx, hcell, hrest⟩ := hc
    obtain ⟨f, rfl⟩ : ∃ f, fuel = f + 1 := ⟨fuel - 1, by simp at hf; omega⟩
    have hf2 : ns.length < f := by simp at hf; omega
    simp only [List.map_cons, List.nodup_cons] at hnd
    have hrest2 :
        Chain (h.set a none) ({ l with head_next := nx } : SingleLinkedList).head_next ns :=
      seg_heap_set a none hnd.1 hrest
    obtain ⟨h2, hcl⟩ := ih hrest2 f hf2
    refine ⟨h2, ?_⟩
    simp only [Clear, hp, ne_eq, reduceCtorEq, not_false_eq_true, ↓reduceIte, getNext, hcell,
      deleteNode]
    exact hcl

/-- C9 (the code departs from the claim): the list `{1}` built by the initializer-list
constructor and then emptied by `Clear()` has no node left (iteration from `begin()` to
`end()` visits nothing) while `GetSize()` still returns 1. -/
theorem C9_count_differs_from_nodes_after_Clear :
    ∃ h2 l2, Clear 2 ex1.1 ex1.2 = Result.ok (h2, l2) ()
      ∧ toList 1 h2 l2 = some ([] : List Nat)
      ∧ GetSize l2 = 1 :=
  ⟨[none], ⟨Ptr.null, 1⟩, by decide, by decide, by decide⟩

/-- C10 (the code departs from the claim): after `Clear()` on the list `{1, 2, 3}`,
`begin() == end()` holds and a second `Clear()` changes nothing, but `GetSize()` still
returns 3 and `IsEmpty()` returns false. -/
theorem C10_Clear_keeps_stale_size :
    ∃ h2 l2, Clear 4 ex123.1 ex123.2 = Result.ok (h2, l2) ()
      ∧ (begin l2).eq end_ = true
      ∧ Clear 1 h2 l2 = Result.ok (h2, l2) ()
      ∧ GetSize l2 = 3
      ∧ IsEmpty l2 = false :=
  ⟨[none, none, none], ⟨Ptr.null, 3⟩, by decide, by decide, by decide, by decide, by decide⟩

/-! ## swap -/

theorem iterFrom_list_irrel {α : Type} (h : Heap α) (l l2 : SingleLinkedList) (fuel : Nat)
    (it : BasicIterator) : iterFrom h l fuel it = iterFrom h l2 fuel it := by
  induction fuel generalizing it with
  | zero => rfl
  | succ f ih =>
    obtain ⟨p⟩ := it
    cases p with
    | null => simp [iterFrom, BasicIterator.ne, end_]
    | head => simp [iterFrom, BasicIterator.ne, end_, BasicIterator.deref, getValue]
    | node a =>
      simp only [iterFrom, BasicIterator.next, getNext, ih]

/-- C17: for all lists `a` and `b` (in any heap, for any loop budget), after `a.swap(b)`
the iteration from `begin()` to `end()` and `GetSize()` of `a` are those `b` had and those
of `b` are those `a` had; `swap` is a total function (it has no failing outcome); and the
free function `swap(a, b)` yields exactly what `a.swap(b)` yields. -/
theorem C17_swap_exchanges {α : Type} (h : Heap α) (a b : SingleLinkedList) (fuel : Nat) :
    toList fuel h (swap a b).1 = toList fuel h b
      ∧ GetSize (swap a b).1 = GetSize b
      ∧ toList fuel h (swap a b).2 = toList fuel h a
      ∧ GetSize (swap a b).2 = GetSize a
      ∧ free_swap a b = swap a b := by
  refine ⟨?_, rfl, ?_, rfl, rfl⟩
  · exact iterFrom_list_irrel h _ _ fuel _
  · exact iterFrom_list_irrel h _ _ fuel _

/-- C18: swap is self-inverse: for all lists `A` and `B`, swapping twice gives back the
two list objects unchanged, hence the same iteration sequence and the same count for
each. -/
theorem C18_swap_twice {α : Type} (h : Heap α) (A B : SingleLinkedList) (fuel : Nat) :
    swap (swap A B).1 (swap A B).2 = (A, B)
      ∧ toList fuel h (swap (swap A B).1 (swap A B).2).1 = toList fuel h A
      ∧ GetSize (swap (swap A B).1 (swap A B).2).1 = GetSize A
      ∧ toList fuel h (swap (swap A B).1 (swap A B).2).2 = toList fuel h B
      ∧ GetSize (swap (swap A B).1 (swap A B).2).2 = GetSize B :=
  ⟨rfl, rfl, rfl, rfl, rfl⟩

/-! ## InsertAfter followed by EraseAfter -/

theorem decSize_incSize {n : Nat} (hn : n < SIZE_MOD) : decSize (incSize n) = n := by
  unfold decSize incSize SIZE_MOD at *
  norm_num at hn ⊢
  omega

theorem chain_start_eq {α : Type} {h h2 : Heap α} {p q : Ptr} {ns : List (Nat × α)}
    (hp : Chain h p ns) (hq : Chain h2 q ns) : p = q := by
  cases ns with
  | nil => exact (show p = Ptr.null from hp).trans (show q = Ptr.null from hq).symm
  | cons n ns =>
    obtain ⟨a, x⟩ := n
    obtain ⟨e1, _⟩ := hp
    obtain ⟨e2, _⟩ := hq
    rw [e1, e2]

theorem posAt_insert {α : Type} {ns : List (Nat × α)} {k : Nat} {p : Ptr} (n : Nat × α)
    (hk : k ≤ ns.length) (hp : PosAt ns k p) : PosAt (ns.take k ++ n :: ns.drop k) k p := by
  cases k with
  | zero => exact hp
  | succ k =>
    obtain ⟨m, hm, e⟩ := hp
    refine ⟨m, ?_, e⟩
    have hlt : k < (ns.take (k + 1)).length := by simp; omega
    rw [List.getElem?_append_left hlt, List.getElem?_take_of_lt (by omega)]
    exact hm

/-- The core of `InsertAfter` on a well-formed chain: at the position with `k ≤ |ns|`
nodes up to and including it, the call returns normally with the new node, allocated at
the next unused address, spliced in after the first `k` nodes. -/
theorem InsertAfter_chain {α : Type} {h : Heap α} {l : SingleLinkedList}
    {ns : List (Nat × α)} {k : Nat} {p : BasicIterator} (v : α)
    (hc : Chain h l.head_next ns) (hk : k ≤ ns.length) (hp : PosAt ns k p.node_) :
    ∃ h2 l2 m, InsertAfter h l p v = Result.ok (h2, l2) ⟨Ptr.node h.length⟩
      ∧ l2.size_ = incSize l.size_
      ∧ Chain h2 l2.head_next (ns.take k ++ (h.length, v) :: ns.drop k)
      ∧ getNext h l p.node_ = some m
      ∧ Chain h m (ns.drop k) := by
  obtain ⟨m, hnext, hm, hpne⟩ := posAt_next hc hk hp
  have hc1 : Chain (h ++ [some ⟨v, m⟩]) l.head_next ns := seg_heap_append _ hc
  have hq : Chain (h ++ [some ⟨v, m⟩]) (Ptr.node h.length) ((h.length, v) :: ns.drop k) :=
    ⟨rfl, m, by simp, seg_heap_append _ hm⟩
  have hdisj : ∀ b ∈ (ns.take k).map Prod.fst,
      b ∉ ((h.length, v) :: ns.drop k).map Prod.fst := by
    intro b hb hb2
    simp only [List.map_cons, List.mem_cons] at hb2
    rcases hb2 with e | hb2
    · have hblt : b < h.length :=
        seg_addr_lt hc b (List.map_subset _ (List.take_subset k ns) hb)
      omega
    · exact take_drop_disjoint k hc b hb hb2
  obtain ⟨h2, l2, hset, hsize, hget, hchain, _⟩ := setNext_at _ hc1 hk hp hq hdisj
  have hget3 : getNext h2 { l2 with size_ := incSize l2.size_ } p.node_
      = some (Ptr.node h.length) := by
    have e1 : getNext h2 { l2 with size_ := incSize l2.size_ } p.node_
        = getNext h2 l2 p.node_ := getNext_congr _ p.node_ rfl
    rw [e1]
    exact hget
  have hpe : p.eq end_ = false := by
    simp only [BasicIterator.eq, end_, decide_eq_false_iff_not]
    exact hpne
  refine ⟨h2, { l2 with size_ := incSize l2.size_ }, m, ?_, ?_, hchain, hnext, hm⟩
  · simp only [InsertAfter, hpe, hnext, newNode, hset, hget3]
    rfl
  · show incSize l2.size_ = incSize l.size_
    rw [hsize]

/-- C20: for every list whose iteration yields `xs` (its counter being a `size_t`), every
position `p` reached from `before_begin()` by `k ≤ |xs|` increments and every value `v`,
`InsertAfter(p, v)` followed by `EraseAfter(p)` both return normally and restore the list
object (`head_.next_node` and `size_`), so the iteration sequence and `GetSize()` are those
before the insertion; the iterator returned by `EraseAfter` is the position that followed
`p` originally, which is `end()` exactly when `p` had no successor. -/
theorem C20_insert_then_erase_restores {α : Type} (h : Heap α) (l : SingleLinkedList)
    (xs : List α) (fuel k : Nat) (p : BasicIterator) (v : α)
    (hit : toList fuel h l = some xs) (hk : k ≤ xs.length)
    (hpos : advance h l k before_begin = some p) (hsz : GetSize l < SIZE_MOD) :
    ∃ h1 l1 r1 h2 l2 r2, InsertAfter h l p v = Result.ok (h1, l1) r1
      ∧ EraseAfter h1 l1 p = Result.ok (h2, l2) r2
      ∧ l2 = l
      ∧ (∀ n, xs.length < n → toList n h2 l2 = some xs)
      ∧ GetSize l2 = GetSize l
      ∧ p.next h l = some r2
      ∧ (r2 = end_ ↔ k = xs.length) := by
  obtain ⟨ns, hc, rfl⟩ := chain_of_iterFrom hit
  rw [List.length_map] at hk
  have hp := advance_posAt hc hk hpos
  obtain ⟨h1, l1, m, hins, hsize1, hchain1, hnext, hm⟩ := InsertAfter_chain v hc hk hp
  have hp1 := posAt_insert (h.length, v) hk hp
  have hlenA : (ns.take k).length = k := by simp; omega
  have hk1 : k < (ns.take k ++ (h.length, v) :: ns.drop k).length := by
    simp only [List.length_append, List.length_cons, hlenA]
    omega
  obtain ⟨h2, l2, nx, hres, hsize2, hchain2, _, hrest, _⟩ :=
    EraseAfterBody_chain hchain1 hk1 hp1
  have htake : (ns.take k ++ (h.length, v) :: ns.drop k).take k = ns.take k :=
    List.take_left' hlenA
  have hdrop : (ns.take k ++ (h.length, v) :: ns.drop k).drop (k + 1) = ns.drop k := by
    have e : ns.take k ++ (h.length, v) :: ns.drop k
        = (ns.take k ++ [(h.length, v)]) ++ ns.drop k := by simp
    rw [e]
    exact List.drop_left' (by simp [hlenA])
  rw [htake, hdrop, List.take_append_drop] at hchain2
  rw [hdrop] at hrest
  have hnx : nx = m := chain_start_eq hrest hm
  subst hnx
  have hl2 : l2 = l := by
    have e1 : l2.head_next = l.head_next := chain_start_eq hchain2 hc
    have e2 : l2.size_ = l.size_ := by
      rw [hsize2, hsize1]
      exact decSize_incSize hsz
    cases l2
    cases l
    simp only at e1 e2
    rw [e1, e2]
  refine ⟨h1, l1, ⟨Ptr.node h.length⟩, h2, l2, ⟨nx⟩, hins, ?_, hl2, ?_, ?_, ?_, ?_⟩
  · simp only [EraseAfter, hres, noexcept]
  · intro n hn
    have := iterFrom_of_chain l2 hchain2 n (by simpa using hn)
    exact this
  · rw [hl2]
  · simp [BasicIterator.next, hnext]
  · have hnull := chain_null_iff hm
    rw [List.length_map]
    constructor
    · intro e
      have e2 : nx = Ptr.null := congrArg BasicIterator.node_ e
      have hl := congrArg List.length (hnull.1 e2)
      simp only [List.length_drop, List.length_nil] at hl
      omega
    · intro e
      have hd : ns.drop k = [] := List.drop_eq_nil_of_le (by omega)
      rw [hnull.2 hd]
      rfl

/-- Witness for C20: `InsertAfter(begin(), 10)` then `EraseAfter(begin())` on `[1, 2, 3]`. -/
theorem C20_insert_then_erase_restores_witness :
    toList 4 ex123.1 ex123.2 = some [1, 2, 3] ∧ 1 ≤ [1, 2, 3].length
      ∧ advance ex123.1 ex123.2 1 before_begin = some (begin ex123.2)
      ∧ GetSize ex123.2 < SIZE_MOD
      ∧ ∃ h1 l1 r1 h2 l2 r2, InsertAfter ex123.1 ex123.2 (begin ex123.2) 10 = Result.ok (h1, l1) r1
        ∧ EraseAfter h1 l1 (begin ex123.2) = Result.ok (h2, l2) r2
        ∧ l2 = ex123.2
        ∧ (∀ n, [1, 2, 3].length < n → toList n h2 l2 = some [1, 2, 3])
        ∧ GetSize l2 = GetSize ex123.2
        ∧ (begin ex123.2).next ex123.1 ex123.2 = some r2
        ∧ (r2 = end_ ↔ 1 = [1, 2, 3].length) :=
  ⟨by decide, by decide, by decide, by decide,
    C20_insert_then_erase_restores ex123.1 ex123.2 [1, 2, 3] 4 1 (begin ex123.2) 10
      (by decide) (by decide) (by decide) (by decide)⟩

/-! ## The comparison loops on chains -/

theorem equalLoop_chain {α : Type} (eq : α → α → Bool) {h : Heap α} (a b : SingleLinkedList)
    {ns1 ns2 : List (Nat × α)} {p1 p2 : Ptr} (h1 : Chain h p1 ns1) (h2 : Chain h p2 ns2)
    (fuel : Nat) (hf : ns1.length < fuel) :
    equalLoop eq h a b fuel ⟨p1⟩ ⟨p2⟩
      = some (equalList eq (ns1.map Prod.snd) (ns2.map Prod.snd)) := by
  induction ns1 generalizing p1 p2 ns2 fuel with
  | nil =>
    have e1 : p1 = Ptr.null := h1
    subst e1
    obtain ⟨f, rfl⟩ : ∃ f, fuel = f + 1 := ⟨fuel - 1, by simp at hf; omega⟩
    cases ns2 with
    | nil =>
      have e2 : p2 = Ptr.null := h2
      subst e2
      simp [equalLoop, equalList, BasicIterator.ne, BasicIterator.eq, end_]
    | cons n2 ns2 =>
      obtain ⟨a2, y⟩ := n2
      obtain ⟨e2, _⟩ := h2
      subst e2
      simp [equalLoop, equalList, BasicIterator.ne, BasicIterator.eq, end_]
  | cons n1 ns1 ih =>
    obtain ⟨a1, x⟩ := n1
    obtain ⟨e1, nx1, hc1, hr1⟩ := h1
    subst e1
    obtain ⟨f, rfl⟩ : ∃ f, fuel = f + 1 := ⟨fuel - 1, by omega⟩
    have hf2 : ns1.length < f := by simp at hf; omega
    cases ns2 with
    | nil =>
      have e2 : p2 = Ptr.null := h2
      subst e2
      simp [equalLoop, equalList, BasicIterator.ne, BasicIterator.eq, end_]
    | cons n2 ns2 =>
      obtain ⟨a2, y⟩ := n2
      obtain ⟨e2, nx2, hc2, hr2⟩ := h2
      subst e2
      simp only [equalLoop, BasicIterator.ne, end_, BasicIterator.deref, BasicIterator.next,
        getValue, getNext, hc1, hc2, List.map_cons, equalList, reduceCtorEq, decide_False,
        Bool.not_false, Bool.and_self, ↓reduceIte, Option.map_some', ih hr1 hr2 f hf2]
      cases eq x y <;> rfl

theorem lexLoop_chain {α : Type} (lt : α → α → Bool) {h : Heap α} (a b : SingleLinkedList)
    {ns1 ns2 : List (Nat × α)} {p1 p2 : Ptr} (h1 : Chain h p1 ns1) (h2 : Chain h p2 ns2)
    (fuel : Nat) (hf : ns1.length < fuel) :
    lexLoop lt h a b fuel ⟨p1⟩ ⟨p2⟩
      = some (lexList lt (ns1.map Prod.snd) (ns2.map Prod.snd)) := by
  induction ns1 generalizing p1 p2 ns2 fuel with
  | nil =>
    have e1 : p1 = Ptr.null := h1
    subst e1
    obtain ⟨f, rfl⟩ : ∃ f, fuel = f + 1 := ⟨fuel - 1, by simp at hf; omega⟩
    cases ns2 with
    | nil =>
      have e2 : p2 = Ptr.null := h2
      subst e2
      simp [lexLoop, lexList, BasicIterator.ne, BasicIterator.eq, end_]
    | cons n2 ns2 =>
      obtain ⟨a2, y⟩ := n2
      obtain ⟨e2, _⟩ := h2
      subst e2
      simp [lexLoop, lexList, BasicIterator.ne, BasicIterator.eq, end_]
  | cons n1 ns1 ih =>
    obtain ⟨a1, x⟩ := n1
    obtain ⟨e1, nx1, hc1, hr1⟩ := h1
    subst e1
    obtain ⟨f, rfl⟩ : ∃ f, fuel = f + 1 := ⟨fuel - 1, by omega⟩
    have hf2 : ns1.length < f := by simp at hf; omega
    cases ns2 with
    | nil =>
      have e2 : p2 = Ptr.null := h2
      subst e2
      simp [lexLoop, lexList, BasicIterator.ne, BasicIterator.eq, end_]
    | cons n2 ns2 =>
      obtain ⟨a2, y⟩ := n2
      obtain ⟨e2, nx2, hc2, hr2⟩ := h2
      subst e2
      simp only [lexLoop, BasicIterator.ne, end_, BasicIterator.deref, BasicIterator.next,
        getValue, getNext, hc1, hc2, List.map_cons, lexList, reduceCtorEq, decide_False,
        Bool.not_false, Bool.and_self, ↓reduceIte, Option.map_some', ih hr1 hr2 f hf2]
      cases lt x y <;> cases lt y x <;> rfl

/-! ## The comparison loops against the specification's words -/

theorem equalList_iff {α : Type} (eq : α → α → Bool) (xs ys : List α) :
    equalList eq xs ys = true ↔ ElementwiseEq eq xs ys := by
  induction xs generalizing ys with
  | nil =>
    cases ys with
    | nil => simp [equalList, ElementwiseEq]
    | cons y ys => simp [equalList, ElementwiseEq]
  | cons x xs ih =>
    cases ys with
    | nil => simp [equalList, ElementwiseEq]
    | cons y ys =>
      simp only [equalList, ElementwiseEq, List.length_cons, Nat.add_right_cancel_iff]
      constructor
      · intro hh
        have hxy : eq x y = true := by
          by_contra hne
          simp [hne] at hh
        rw [if_pos hxy] at hh
        obtain ⟨hl, hall⟩ := (ih ys).1 hh
        refine ⟨hl, ?_⟩
        intro i a b ha hb
        cases i with
        | zero =>
          simp only [List.getElem?_cons_zero, Option.some.injEq] at ha hb
          rw [← ha, ← hb]
          exact hxy
        | succ i =>
          simp only [List.getElem?_cons_succ] at ha hb
          exact hall i a b ha hb
      · rintro ⟨hl, hall⟩
        have hxy : eq x y = true := hall 0 x y (by simp) (by simp)
        rw [if_pos hxy]
        exact (ih ys).2 ⟨hl, fun i a b ha hb =>
          hall (i + 1) a b (by simpa using ha) (by simpa using hb)⟩

theorem lexLess_cons_same {α : Type} (lt : α → α → Bool) (x : α) (xs ys : List α) :
    LexLess lt (x :: xs) (x :: ys) ↔ LexLess lt xs ys := by
  constructor
  · rintro (⟨hl, ht⟩ | ⟨i, a, b, ha, hb, ht, hne, hlt⟩)
    · left
      simp only [List.length_cons, List.take_succ_cons, List.cons.injEq, true_and] at hl ht
      exact ⟨by omega, ht⟩
    · right
      cases i with
      | zero =>
        simp only [List.getElem?_cons_zero, Option.some.injEq] at ha hb
        exact absurd (ha.symm.trans hb) hne
      | succ i =>
        simp only [List.getElem?_cons_succ, List.take_succ_cons, List.cons.injEq,
          true_and] at ha hb ht
        exact ⟨i, a, b, ha, hb, ht, hne, hlt⟩
  · rintro (⟨hl, ht⟩ | ⟨i, a, b, ha, hb, ht, hne, hlt⟩)
    · left
      simp only [List.length_cons, List.take_succ_cons, List.cons.injEq, true_and]
      exact ⟨by omega, ht⟩
    · right
      exact ⟨i + 1, a, b, by simpa using ha, by simpa using hb, by simpa using ht, hne, hlt⟩

theorem lexList_iff {α : Type} (lt : α → α → Bool) (hirr : ∀ x, lt x x = false)
    (htot : ∀ x y, x ≠ y → lt x y = true ∨ lt y x = true) (xs ys : List α) :
    lexList lt xs ys = true ↔ LexLess lt xs ys := by
  induction xs generalizing ys with
  | nil =>
    cases ys with
    | nil => simp [lexList, LexLess]
    | cons y ys => simp [lexList, LexLess]
  | cons x xs ih =>
    cases ys with
    | nil => simp [lexList, LexLess]
    | cons y ys =>
      simp only [lexList]
      by_cases hxy : lt x y = true
      · have hne : x ≠ y := by
          intro e
          rw [e, hirr y] at hxy
          cases hxy
        rw [if_pos hxy]
        exact ⟨fun _ => Or.inr ⟨0, x, y, by simp, by simp, by simp, hne, hxy⟩, fun _ => rfl⟩
      · rw [if_neg hxy]
        by_cases hyx : lt y x = true
        · rw [if_pos hyx]
          have hne : x ≠ y := by
            intro e
            rw [e, hirr y] at hyx
            cases hyx
          constructor
          · intro hf
            cases hf
          · rintro (⟨_, ht⟩ | ⟨i, a, b, ha, hb, ht, hab, hlt⟩)
            · simp only [List.length_cons, List.take_succ_cons, List.cons.injEq] at ht
              exact absurd ht.1.symm hne
            · cases i with
              | zero =>
                simp only [List.getElem?_cons_zero, Option.some.injEq] at ha hb
                rw [← ha, ← hb] at hlt
                exact absurd hlt hxy
              | succ i =>
                simp only [List.take_succ_cons, List.cons.injEq] at ht
                exact absurd ht.1 hne
        · rw [if_neg hyx]
          have he : x = y := by
            by_contra hne
            rcases htot x y hne with h1 | h1
            · exact hxy h1
            · exact hyx h1
          subst he
          rw [ih ys, lexLess_cons_same]

theorem equalList_symm {α : Type} (eq : α → α → Bool) (hsymm : ∀ x y, eq x y = eq y x)
    (xs ys : List α) : equalList eq ys xs = equalList eq xs ys := by
  induction xs generalizing ys with
  | nil => cases ys <;> rfl
  | cons x xs ih =>
    cases ys with
    | nil => rfl
    | cons y ys => simp only [equalList, hsymm y x, ih ys]

/-! ## operator== and operator!= -/

/-- C14: for all lists `a` and `b` in one heap whose iterations yield `xs` and `ys`, and
every loop budget above both lengths, `a == b` returns a value, and that value is true if
and only if `a.GetSize()` equals `b.GetSize()` and the two sequences are elementwise equal
in order under the element type's `operator==`; and, that `operator==` being symmetric,
`a != b` (computed in the source as `!(b == a)`) returns exactly the negation. -/
theorem C14_operator_eq_ne {α : Type} (eq : α → α → Bool) (h : Heap α)
    (a b : SingleLinkedList) (xs ys : List α) (f1 f2 fuel : Nat)
    (ha : toList f1 h a = some xs) (hb : toList f2 h b = some ys)
    (hfa : xs.length < fuel) (hfb : ys.length < fuel) :
    ∃ r, operator_eq eq fuel h a b = some r
      ∧ (r = true ↔ (GetSize a = GetSize b ∧ ElementwiseEq eq xs ys))
      ∧ ((∀ x y, eq x y = eq y x) → operator_ne eq fuel h a b = some (!r)) := by
  obtain ⟨ns1, hc1, rfl⟩ := chain_of_iterFrom ha
  obtain ⟨ns2, hc2, rfl⟩ := chain_of_iterFrom hb
  rw [List.length_map] at hfa hfb
  have hab := equalLoop_chain eq a b hc1 hc2 fuel hfa
  have hba := equalLoop_chain eq b a hc2 hc1 fuel hfb
  by_cases hs : a.size_ = b.size_
  · refine ⟨equalList eq (ns1.map Prod.snd) (ns2.map Prod.snd), ?_, ?_, ?_⟩
    · simp only [operator_eq, begin, hs, ne_eq, not_true_eq_false, ↓reduceIte]
      exact hab
    · rw [equalList_iff]
      exact ⟨fun hh => ⟨hs, hh⟩, fun hh => hh.2⟩
    · intro hsymm
      simp only [operator_ne, operator_eq, begin, hs, ne_eq, not_true_eq_false, ↓reduceIte, hba,
        Option.map_some', equalList_symm eq hsymm]
  · refine ⟨false, ?_, ?_, ?_⟩
    · simp only [operator_eq, ne_eq, hs, not_false_eq_true, ↓reduceIte]
    · exact ⟨fun hh => (by cases hh), fun hh => absurd hh.1 hs⟩
    · intro _
      have hs2 : ¬ b.size_ = a.size_ := fun e => hs e.symm
      simp only [operator_ne, operator_eq, ne_eq, hs2, not_false_eq_true, ↓reduceIte,
        Option.map_some', Bool.not_false]

/-- Witness for C14: the lists `[1, 2]` and `[1, 2, 3]` in one heap. -/
theorem C14_operator_eq_ne_witness :
    toList 3 (twoLists [] [1, 2] [1, 2, 3]).1 (twoLists [] [1, 2] [1, 2, 3]).2.1 = some [1, 2]
      ∧ toList 4 (twoLists [] [1, 2] [1, 2, 3]).1 (twoLists [] [1, 2] [1, 2, 3]).2.2
          = some [1, 2, 3]
      ∧ ∃ r, operator_eq natEq 4 (twoLists [] [1, 2] [1, 2, 3]).1
            (twoLists [] [1, 2] [1, 2, 3]).2.1 (twoLists [] [1, 2] [1, 2, 3]).2.2 = some r
        ∧ (r = true ↔ (GetSize (twoLists ([] : Heap Nat) [1, 2] [1, 2, 3]).2.1
              = GetSize (twoLists ([] : Heap Nat) [1, 2] [1, 2, 3]).2.2
            ∧ ElementwiseEq natEq [1, 2] [1, 2, 3]))
        ∧ ((∀ x y, natEq x y = natEq y x) →
            operator_ne natEq 4 (twoLists [] [1, 2] [1, 2, 3]).1
              (twoLists [] [1, 2] [1, 2, 3]).2.1 (twoLists [] [1, 2] [1, 2, 3]).2.2
              = some (!r)) :=
  ⟨by decide, by decide,
    C14_operator_eq_ne natEq (twoLists [] [1, 2] [1, 2, 3]).1
      (twoLists [] [1, 2] [1, 2, 3]).2.1 (twoLists [] [1, 2] [1, 2, 3]).2.2
      [1, 2] [1, 2, 3] 3 4 4 (by decide) (by decide) (by decide) (by decide)⟩

/-! ## Lexicographic comparison up to equivalence -/

theorem lexLessEquiv_cons {α : Type} (lt : α → α → Bool) (x y : α) (xs ys : List α)
    (hxy : lt x y = false) (hyx : lt y x = false) :
    LexLessEquiv lt (x :: xs) (y :: ys) ↔ LexLessEquiv lt xs ys := by
  constructor
  · rintro (⟨hl, hall⟩ | ⟨i, a, b, ha, hb, hprev, hlt⟩)
    · left
      simp only [List.length_cons] at hl
      exact ⟨by omega, fun i a b ha hb =>
        hall (i + 1) a b (by simpa using ha) (by simpa using hb)⟩
    · right
      cases i with
      | zero =>
        simp only [List.getElem?_cons_zero, Option.some.injEq] at ha hb
        rw [← ha, ← hb, hxy] at hlt
        cases hlt
      | succ i =>
        simp only [List.getElem?_cons_succ] at ha hb
        exact ⟨i, a, b, ha, hb, fun j u w hj hu hw =>
          hprev (j + 1) u w (by omega) (by simpa using hu) (by simpa using hw), hlt⟩
  · rintro (⟨hl, hall⟩ | ⟨i, a, b, ha, hb, hprev, hlt⟩)
    · left
      refine ⟨by simp only [List.length_cons]; omega, ?_⟩
      intro i a b ha hb
      cases i with
      | zero =>
        simp only [List.getElem?_cons_zero, Option.some.injEq] at ha hb
        rw [← ha, ← hb]
        exact ⟨hxy, hyx⟩
      | succ i =>
        simp only [List.getElem?_cons_succ] at ha hb
        exact hall i a b ha hb
    · right
      refine ⟨i + 1, a, b, by simpa using ha, by simpa using hb, ?_, hlt⟩
      intro j u w hj hu hw
      cases j with
      | zero =>
        simp only [List.getElem?_cons_zero, Option.some.injEq] at hu hw
        rw [← hu, ← hw]
        exact ⟨hxy, hyx⟩
      | succ j =>
        simp only [List.getElem?_cons_succ] at hu hw
        exact hprev j u w (by omega) hu hw

theorem lexList_iff_equiv {α : Type} (lt : α → α → Bool) (xs ys : List α) :
    lexList lt xs ys = true ↔ LexLessEquiv lt xs ys := by
  induction xs generalizing ys with
  | nil =>
    cases ys with
    | nil => simp [lexList, LexLessEquiv]
    | cons y ys => simp [lexList, LexLessEquiv]
  | cons x xs ih =>
    cases ys with
    | nil => simp [lexList, LexLessEquiv]
    | cons y ys =>
      simp only [lexList]
      by_cases hxy : lt x y = true
      · rw [if_pos hxy]
        refine ⟨fun _ => Or.inr ⟨0, x, y, by simp, by simp, ?_, hxy⟩, fun _ => rfl⟩
        intro j u w hj
        omega
      · rw [if_neg hxy]
        by_cases hyx : lt y x = true
        · rw [if_pos hyx]
          constructor
          · intro hf
            cases hf
          · rintro (⟨_, hall⟩ | ⟨i, a, b, ha, hb, hprev, hlt⟩)
            · have := (hall 0 x y (by simp) (by simp)).2
              rw [hyx] at this
              cases this
            · cases i with
              | zero =>
                simp only [List.getElem?_cons_zero, Option.some.injEq] at ha hb
                rw [← ha, ← hb] at hlt
                exact absurd hlt hxy
              | succ i =>
                have := (hprev 0 x y (by omega) (by simp) (by simp)).2
                rw [hyx] at this
                cases this
        · rw [if_neg hyx]
          have h1 : lt x y = false := by simpa using hxy
          have h2 : lt y x = false := by simpa using hyx
          rw [ih ys, lexLessEquiv_cons lt x y xs ys h1 h2]

/-! ## operator< -/

/-- C15 as stated fails for a strict ordering that is not total: with pairs compared by
their first component (irreflexive and transitive), `a = [(1,0), (2,0)]` and
`b = [(1,1), (5,0)]` differ first at index 0, where the element of `a` is not less, and `a`
is not a prefix of `b`; yet `a < b` returns true, because the loop passes over index 0
(neither element is less than the other) and decides at index 1. -/
theorem C15_counterexample :
    (∀ x, keyLt x x = false)
      ∧ (∀ x y z, keyLt x y = true → keyLt y z = true → keyLt x z = true)
      ∧ toList 3 (twoLists [] [(1, 0), (2, 0)] [(1, 1), (5, 0)]).1
          (twoLists [] [(1, 0), (2, 0)] [(1, 1), (5, 0)]).2.1 = some [(1, 0), (2, 0)]
      ∧ toList 3 (twoLists [] [(1, 0), (2, 0)] [(1, 1), (5, 0)]).1
          (twoLists [] [(1, 0), (2, 0)] [(1, 1), (5, 0)]).2.2 = some [(1, 1), (5, 0)]
      ∧ operator_lt keyLt 3 (twoLists [] [(1, 0), (2, 0)] [(1, 1), (5, 0)]).1
          (twoLists [] [(1, 0), (2, 0)] [(1, 1), (5, 0)]).2.1
          (twoLists [] [(1, 0), (2, 0)] [(1, 1), (5, 0)]).2.2 = some true
      ∧ ¬ LexLess keyLt [(1, 0), (2, 0)] [(1, 1), (5, 0)] := by
  refine ⟨fun x => by simp [keyLt], ?_, by decide, by decide, by decide, ?_⟩
  · intro x y z hxy hyz
    simp only [keyLt, decide_eq_true_eq] at hxy hyz ⊢
    omega
  · rintro (⟨hl, _⟩ | ⟨i, x, y, hx, hy, ht, hne, hlt⟩)
    · simp at hl
    · match i with
      | 0 =>
        simp only [List.getElem?_cons_zero, Option.some.injEq] at hx hy
        rw [← hx, ← hy] at hlt
        simp [keyLt] at hlt
      | 1 => simp at ht
      | (n + 2) => simp at hx

/-- C15, amended: for all lists `a` and `b` in one heap whose iterations yield `xs` and
`ys`, over any element `operator<`, and every loop budget above the length of `xs`, `a < b`
returns a value, and that value is true exactly when `xs` is lexicographically less than
`ys` with elements compared up to equivalence (neither less than the other): `xs` is
shorter and equivalent to `ys` on its whole length, or at the first index where one
element is less than the other the element of `xs` is less.  When the `operator<` is
irreflexive and total on distinct values (a strict total order) this is the claim as
written: `xs` is a proper prefix of `ys`, or at the first index where they differ the
element of `xs` is less.  In particular `[1, 2] < [1, 2, 3]` is true, `[2] < [1, 9]` is
false and `[1, 9] < [2]` is true. -/
theorem C15_operator_lt_up_to_equivalence {α : Type} (lt : α → α → Bool) (h : Heap α)
    (a b : SingleLinkedList) (xs ys : List α) (f1 f2 fuel : Nat)
    (ha : toList f1 h a = some xs) (hb : toList f2 h b = some ys)
    (hfa : xs.length < fuel) :
    (∃ r, operator_lt lt fuel h a b = some r
        ∧ (r = true ↔ LexLessEquiv lt xs ys)
        ∧ ((∀ x, lt x x = false) → (∀ x y, x ≠ y → lt x y = true ∨ lt y x = true) →
            (r = true ↔ LexLess lt xs ys)))
      ∧ operator_lt natLt 4 (twoLists [] [1, 2] [1, 2, 3]).1
          (twoLists [] [1, 2] [1, 2, 3]).2.1 (twoLists [] [1, 2] [1, 2, 3]).2.2 = some true
      ∧ operator_lt natLt 4 (twoLists [] [2] [1, 9]).1
          (twoLists [] [2] [1, 9]).2.1 (twoLists [] [2] [1, 9]).2.2 = some false
      ∧ operator_lt natLt 4 (twoLists [] [2] [1, 9]).1
          (twoLists [] [2] [1, 9]).2.2 (twoLists [] [2] [1, 9]).2.1 = some true := by
  obtain ⟨ns1, hc1, rfl⟩ := chain_of_iterFrom ha
  obtain ⟨ns2, hc2, rfl⟩ := chain_of_iterFrom hb
  rw [List.length_map] at hfa
  refine ⟨⟨lexList lt (ns1.map Prod.snd) (ns2.map Prod.snd), ?_, ?_, ?_⟩, by decide,
    by decide, by decide⟩
  · exact lexLoop_chain lt a b hc1 hc2 fuel hfa
  · exact lexList_iff_equiv lt _ _
  · intro hirr htot
    exact lexList_iff lt hirr htot _ _

/-- Witness for the amended C15: on the lists of the counterexample (pairs compared by
their first component) `a < b` is decided up to equivalence; on `[1, 9]` and `[2]` over the
numbers, a strict total order, it is decided as the claim words it. -/
theorem C15_operator_lt_up_to_equivalence_witness :
    toList 3 (twoLists [] [(1, 0), (2, 0)] [(1, 1), (5, 0)]).1
        (twoLists [] [(1, 0), (2, 0)] [(1, 1), (5, 0)]).2.1 = some [(1, 0), (2, 0)]
      ∧ toList 3 (twoLists [] [(1, 0), (2, 0)] [(1, 1), (5, 0)]).1
          (twoLists [] [(1, 0), (2, 0)] [(1, 1), (5, 0)]).2.2 = some [(1, 1), (5, 0)]
      ∧ [(1, 0), (2, 0)].length < 3
      ∧ (∃ r, operator_lt keyLt 3 (twoLists [] [(1, 0), (2, 0)] [(1, 1), (5, 0)]).1
            (twoLists [] [(1, 0), (2, 0)] [(1, 1), (5, 0)]).2.1
            (twoLists [] [(1, 0), (2, 0)] [(1, 1), (5, 0)]).2.2 = some r
          ∧ (r = true ↔ LexLessEquiv keyLt [(1, 0), (2, 0)] [(1, 1), (5, 0)]))
      ∧ toList 3 (twoLists [] [2] [1, 9]).1 (twoLists [] [2] [1, 9]).2.2 = some [1, 9]
      ∧ toList 2 (twoLists [] [2] [1, 9]).1 (twoLists [] [2] [1, 9]).2.1 = some [2]
      ∧ (∀ x, natLt x x = false)
      ∧ (∀ x y, x ≠ y → natLt x y = true ∨ natLt y x = true)
      ∧ (∃ r, operator_lt natLt 3 (twoLists [] [2] [1, 9]).1
            (twoLists [] [2] [1, 9]).2.2 (twoLists [] [2] [1, 9]).2.1 = some r
          ∧ (r = true ↔ LexLessEquiv natLt [1, 9] [2])
          ∧ (r = true ↔ LexLess natLt [1, 9] [2])) :=
  ⟨by decide, by decide, by decide,
    (match (C15_operator_lt_up_to_equivalence keyLt
        (twoLists [] [(1, 0), (2, 0)] [(1, 1), (5, 0)]).1
        (twoLists [] [(1, 0), (2, 0)] [(1, 1), (5, 0)]).2.1
        (twoLists [] [(1, 0), (2, 0)] [(1, 1), (5, 0)]).2.2
        [(1, 0), (2, 0)] [(1, 1), (5, 0)] 3 3 3 (by decide) (by decide) (by decide)).1 with
      | ⟨r, h1, h2, _⟩ => ⟨r, h1, h2⟩),
    by decide, by decide,
    fun x => (by simp [natLt]),
    fun x y hne => (by simp only [natLt, decide_eq_true_eq]; omega),
    (match (C15_operator_lt_up_to_equivalence natLt
        (twoLists [] [2] [1, 9]).1 (twoLists [] [2] [1, 9]).2.2 (twoLists [] [2] [1, 9]).2.1
        [1, 9] [2] 3 2 3 (by decide) (by decide) (by decide)).1 with
      | ⟨r, h1, h2, h3⟩ =>
        ⟨r, h1, h2, h3 (fun x => (by simp [natLt]))
          (fun x y hne => (by simp only [natLt, decide_eq_true_eq]; omega))⟩)⟩

/-! ## The derived orderings on constructed lists -/

theorem foldl_PushFront_heap {α : Type} (vs : List α) (h : Heap α) (l : SingleLinkedList) :
    ∃ c, (vs.foldl (fun s v => PushFront s.1 s.2 v) (h, l)).1 = h ++ c := by
  induction vs generalizing h l with
  | nil => exact ⟨[], by simp⟩
  | cons v vs ih =>
    obtain ⟨c, hc⟩ := ih (PushFront h l v).1 (PushFront h l v).2
    refine ⟨[some ⟨v, l.head_next⟩] ++ c, ?_⟩
    simp only [List.foldl]
    rw [hc]
    simp [PushFront, newNode]

theorem fromInitList_spec {α : Type} (h : Heap α) (S : List α) :
    ∃ ms c, (fromInitList h S).1 = h ++ c
      ∧ Chain (fromInitList h S).1 (fromInitList h S).2.head_next ms
      ∧ ms.map Prod.snd = S
      ∧ (S.length < SIZE_MOD → (fromInitList h S).2.size_ = S.length) := by
  obtain ⟨ms, h1, h2, h3⟩ := foldl_PushFront S.reverse h mkEmpty [] rfl
  obtain ⟨c, hc⟩ := foldl_PushFront_heap S.reverse h mkEmpty
  rw [List.append_nil] at h1
  rw [List.reverse_reverse] at h2
  refine ⟨ms, c, hc, h1, h2, ?_⟩
  intro hlen
  have := h3 (by simpa [mkEmpty] using hlen)
  simpa [mkEmpty, fromInitList] using this

theorem twoLists_spec {α : Type} (h : Heap α) (S1 S2 : List α) :
    ∃ ms1 ms2, Chain (twoLists h S1 S2).1 (twoLists h S1 S2).2.1.head_next ms1
      ∧ ms1.map Prod.snd = S1
      ∧ Chain (twoLists h S1 S2).1 (twoLists h S1 S2).2.2.head_next ms2
      ∧ ms2.map Prod.snd = S2
      ∧ (S1.length < SIZE_MOD → (twoLists h S1 S2).2.1.size_ = S1.length)
      ∧ (S2.length < SIZE_MOD → (twoLists h S1 S2).2.2.size_ = S2.length) := by
  obtain ⟨ms1, c1, _, hc1, hm1, hs1⟩ := fromInitList_spec h S1
  obtain ⟨ms2, c2, hh2, hc2, hm2, hs2⟩ := fromInitList_spec (fromInitList h S1).1 S2
  refine ⟨ms1, ms2, ?_, hm1, hc2, hm2, hs1, hs2⟩
  show Chain (fromInitList (fromInitList h S1).1 S2).1 (fromInitList h S1).2.head_next ms1
  rw [hh2]
  exact seg_heap_append c2 hc1

theorem equalList_decide_iff {α : Type} [DecidableEq α] (xs ys : List α) :
    equalList (fun x y => decide (x = y)) xs ys = true ↔ xs = ys := by
  induction xs generalizing ys with
  | nil => cases ys <;> simp [equalList]
  | cons x xs ih =>
    cases ys with
    | nil => simp [equalList]
    | cons y ys =>
      simp only [equalList, List.cons.injEq]
      by_cases hxy : x = y
      · simp [hxy, ih ys]
      · simp [hxy]

theorem lexList_trichotomy {α : Type} [LinearOrder α] (xs ys : List α) :
    (lexList (fun x y => decide (x < y)) xs ys = true ∧ xs ≠ ys
        ∧ lexList (fun x y => decide (x < y)) ys xs = false)
      ∨ (lexList (fun x y => decide (x < y)) xs ys = false ∧ xs = ys
        ∧ lexList (fun x y => decide (x < y)) ys xs = false)
      ∨ (lexList (fun x y => decide (x < y)) xs ys = false ∧ xs ≠ ys
        ∧ lexList (fun x y => decide (x < y)) ys xs = true) := by
  induction xs generalizing ys with
  | nil =>
    cases ys with
    | nil => simp [lexList]
    | cons y ys => simp [lexList]
  | cons x xs ih =>
    cases ys with
    | nil => simp [lexList]
    | cons y ys =>
      rcases lt_trichotomy x y with hlt | heq | hgt
      · have h1 : ¬ y < x := not_lt_of_lt hlt
        have h2 : x ≠ y := ne_of_lt hlt
        simp [lexList, hlt, h1, h2]
      · subst heq
        simpa [lexList] using ih ys
      · have h1 : ¬ x < y := not_lt_of_lt hgt
        have h2 : x ≠ y := ne_of_gt hgt
        simp [lexList, hgt, h1, h2]

theorem lexList_trichotomy_bool {α : Type} [LinearOrder α] (xs ys : List α) :
    (lexList (fun x y => decide (x < y)) xs ys = true ∧ decide (xs = ys) = false
        ∧ lexList (fun x y => decide (x < y)) ys xs = false)
      ∨ (lexList (fun x y => decide (x < y)) xs ys = false ∧ decide (xs = ys) = true
        ∧ lexList (fun x y => decide (x < y)) ys xs = false)
      ∨ (lexList (fun x y => decide (x < y)) xs ys = false ∧ decide (xs = ys) = false
        ∧ lexList (fun x y => decide (x < y)) ys xs = true) := by
  rcases lexList_trichotomy xs ys with ⟨e1, e2, e3⟩ | ⟨e1, e2, e3⟩ | ⟨e1, e2, e3⟩
  · exact Or.inl ⟨e1, decide_eq_false e2, e3⟩
  · exact Or.inr (Or.inl ⟨e1, decide_eq_true e2, e3⟩)
  · exact Or.inr (Or.inr ⟨e1, decide_eq_false e2, e3⟩)

/-- C16: for all sequences `S1` and `S2` (of lengths a `size_t` can hold) over a linearly
ordered element type, with `a` and `b` the lists constructed from them in one heap, and
every loop budget above both lengths: the six comparisons all return a value;
`a > b` is `b < a`; `a <= b` is `a < b || a == b`; `a >= b` is `a > b || a == b`; and
exactly one of `a < b`, `a == b`, `a > b` is true. -/
theorem C16_derived_orderings {α : Type} [LinearOrder α] (h : Heap α) (S1 S2 : List α)
    (fuel : Nat) (hl1 : S1.length < SIZE_MOD) (hl2 : S2.length < SIZE_MOD)
    (hf1 : S1.length < fuel) (hf2 : S2.length < fuel) :
    ∃ lt_ab eq_ab gt_ab : Bool,
      operator_lt (fun x y => decide (x < y)) fuel (twoLists h S1 S2).1
          (twoLists h S1 S2).2.1 (twoLists h S1 S2).2.2 = some lt_ab
        ∧ operator_eq (fun x y => decide (x = y)) fuel (twoLists h S1 S2).1
          (twoLists h S1 S2).2.1 (twoLists h S1 S2).2.2 = some eq_ab
        ∧ operator_gt (fun x y => decide (x < y)) fuel (twoLists h S1 S2).1
          (twoLists h S1 S2).2.1 (twoLists h S1 S2).2.2 = some gt_ab
        ∧ operator_lt (fun x y => decide (x < y)) fuel (twoLists h S1 S2).1
          (twoLists h S1 S2).2.2 (twoLists h S1 S2).2.1 = some gt_ab
        ∧ operator_le (fun x y => decide (x < y)) fuel (twoLists h S1 S2).1
          (twoLists h S1 S2).2.1 (twoLists h S1 S2).2.2 = some (lt_ab || eq_ab)
        ∧ operator_ge (fun x y => decide (x < y)) fuel (twoLists h S1 S2).1
          (twoLists h S1 S2).2.1 (twoLists h S1 S2).2.2 = some (gt_ab || eq_ab)
        ∧ ((lt_ab = true ∧ eq_ab = false ∧ gt_ab = false)
          ∨ (lt_ab = false ∧ eq_ab = true ∧ gt_ab = false)
          ∨ (lt_ab = false ∧ eq_ab = false ∧ gt_ab = true)) := by
  obtain ⟨ms1, ms2, hc1, hm1, hc2, hm2, hs1, hs2⟩ := twoLists_spec h S1 S2
  have hs1 := hs1 hl1
  have hs2 := hs2 hl2
  have hf1m : ms1.length < fuel := by rw [← List.length_map ms1 Prod.snd, hm1]; exact hf1
  have hf2m : ms2.length < fuel := by rw [← List.length_map ms2 Prod.snd, hm2]; exact hf2
  have hlt := lexLoop_chain (fun x y => decide (x < y)) (twoLists h S1 S2).2.1
    (twoLists h S1 S2).2.2 hc1 hc2 fuel hf1m
  have hgt := lexLoop_chain (fun x y => decide (x < y)) (twoLists h S1 S2).2.2
    (twoLists h S1 S2).2.1 hc2 hc1 fuel hf2m
  have heqv := equalLoop_chain (fun x y => decide (x = y)) (twoLists h S1 S2).2.1
    (twoLists h S1 S2).2.2 hc1 hc2 fuel hf1m
  rw [hm1, hm2] at hlt hgt heqv
  have heq : operator_eq (fun x y => decide (x = y)) fuel (twoLists h S1 S2).1
      (twoLists h S1 S2).2.1 (twoLists h S1 S2).2.2 = some (decide (S1 = S2)) := by
    by_cases hsz : (twoLists h S1 S2).2.1.size_ = (twoLists h S1 S2).2.2.size_
    · simp only [operator_eq, begin, hsz, ne_eq, not_true_eq_false, ↓reduceIte, heqv,
        Option.some.injEq]
      rw [Bool.eq_iff_iff, equalList_decide_iff]
      simp
    · have hne : S1 ≠ S2 := by
        intro e
        apply hsz
        rw [hs1, hs2, e]
      simp only [operator_eq, ne_eq, hsz, not_false_eq_true, ↓reduceIte, hne, decide_False]
  have hlt2 : operator_lt (fun x y => decide (x < y)) fuel (twoLists h S1 S2).1
      (twoLists h S1 S2).2.1 (twoLists h S1 S2).2.2
      = some (lexList (fun x y => decide (x < y)) S1 S2) := hlt
  have hgt2 : operator_lt (fun x y => decide (x < y)) fuel (twoLists h S1 S2).1
      (twoLists h S1 S2).2.2 (twoLists h S1 S2).2.1
      = some (lexList (fun x y => decide (x < y)) S2 S1) := hgt
  refine ⟨lexList (fun x y => decide (x < y)) S1 S2, decide (S1 = S2),
    lexList (fun x y => decide (x < y)) S2 S1, hlt2, heq, ?_, hgt2, ?_, ?_, ?_⟩
  · simp only [operator_gt, hgt2]
  · simp only [operator_le, hgt2, Option.map_some', Option.some.injEq]
    rcases lexList_trichotomy_bool S1 S2 with ⟨e1, e2, e3⟩ | ⟨e1, e2, e3⟩ | ⟨e1, e2, e3⟩ <;>
      rw [e1, e2, e3] <;> rfl
  · simp only [operator_ge, hlt2, Option.map_some', Option.some.injEq]
    rcases lexList_trichotomy_bool S1 S2 with ⟨e1, e2, e3⟩ | ⟨e1, e2, e3⟩ | ⟨e1, e2, e3⟩ <;>
      rw [e1, e2, e3] <;> rfl
  · rcases lexList_trichotomy_bool S1 S2 with ⟨e1, e2, e3⟩ | ⟨e1, e2, e3⟩ | ⟨e1, e2, e3⟩
    · exact Or.inl ⟨e1, e2, e3⟩
    · exact Or.inr (Or.inl ⟨e1, e2, e3⟩)
    · exact Or.inr (Or.inr ⟨e1, e2, e3⟩)

/-- Witness for C16: `a` built from `[2]` and `b` from `[1, 9]`, so that `a > b`. -/
theorem C16_derived_orderings_witness :
    [2].length < SIZE_MOD ∧ [1, 9].length < SIZE_MOD ∧ [2].length < 4 ∧ [1, 9].length < 4
      ∧ ∃ lt_ab eq_ab gt_ab : Bool,
        operator_lt (fun x y => decide (x < y)) 4 (twoLists ([] : Heap Nat) [2] [1, 9]).1
            (twoLists ([] : Heap Nat) [2] [1, 9]).2.1 (twoLists ([] : Heap Nat) [2] [1, 9]).2.2
            = some lt_ab
          ∧ operator_eq (fun x y => decide (x = y)) 4 (twoLists ([] : Heap Nat) [2] [1, 9]).1
            (twoLists ([] : Heap Nat) [2] [1, 9]).2.1 (twoLists ([] : Heap Nat) [2] [1, 9]).2.2
            = some eq_ab
          ∧ operator_gt (fun x y => decide (x < y)) 4 (twoLists ([] : Heap Nat) [2] [1, 9]).1
            (twoLists ([] : Heap Nat) [2] [1, 9]).2.1 (twoLists ([] : Heap Nat) [2] [1, 9]).2.2
            = some gt_ab
          ∧ operator_lt (fun x y => decide (x < y)) 4 (twoLists ([] : Heap Nat) [2] [1, 9]).1
            (twoLists ([] : Heap Nat) [2] [1, 9]).2.2 (twoLists ([] : Heap Nat) [2] [1, 9]).2.1
            = some gt_ab
          ∧ operator_le (fun x y => decide (x < y)) 4 (twoLists ([] : Heap Nat) [2] [1, 9]).1
            (twoLists ([] : Heap Nat) [2] [1, 9]).2.1 (twoLists ([] : Heap Nat) [2] [1, 9]).2.2
            = some (lt_ab || eq_ab)
          ∧ operator_ge (fun x y => decide (x < y)) 4 (twoLists ([] : Heap Nat) [2] [1, 9]).1
            (twoLists ([] : Heap Nat) [2] [1, 9]).2.1 (twoLists ([] : Heap Nat) [2] [1, 9]).2.2
            = some (gt_ab || eq_ab)
          ∧ ((lt_ab = true ∧ eq_ab = false ∧ gt_ab = false)
            ∨ (lt_ab = false ∧ eq_ab = true ∧ gt_ab = false)
            ∨ (lt_ab = false ∧ eq_ab = false ∧ gt_ab = true)) :=
  ⟨by decide, by decide, by decide, by decide,
    C16_derived_orderings ([] : Heap Nat) [2] [1, 9] 4 (by decide) (by decide) (by decide)
      (by decide)⟩

/-! ## The copy constructor and the element count -/

theorem setNext_size {α : Type} {h h2 : Heap α} {l l2 : SingleLinkedList} {p q : Ptr}
    (hs : setNext h l p q = some (h2, l2)) : l2.size_ = l.size_ := by
  cases p with
  | null => simp [setNext] at hs
  | head =>
    simp only [setNext, Option.some.injEq, Prod.mk.injEq] at hs
    rw [← hs.2]
  | node a =>
    simp only [setNext] at hs
    split at hs
    · simp only [Option.some.injEq, Prod.mk.injEq] at hs
      rw [← hs.2]
    · cases hs

theorem CopyLoop_size {α : Type} [Inhabited α] (elemNext : α → Bool)
    (other : SingleLinkedList) (fuel : Nat) (h : Heap α) (loc : SingleLinkedList)
    (it_other : BasicIterator) (it_tail : Ptr) (h2 : Heap α) (loc2 : SingleLinkedList)
    (hres : CopyLoop elemNext other fuel h loc it_other it_tail = Result.ok (h2, loc2) ()) :
    loc2.size_ = loc.size_ := by
  induction fuel generalizing h loc it_other it_tail with
  | zero => simp [CopyLoop] at hres
  | succ f ih =>
    simp only [CopyLoop] at hres
    split at hres
    · split at hres
      · cases hres
      · split at hres
        · cases hres
        · split at hres
          · cases hres
          · split at hres
            · cases hres
            · rename_i hset
              split at hres
              · cases hres
              · split at hres
                · cases hres
                · have hi := ih _ _ _ _ hres
                  rw [hi]
                  exact setNext_size hset
    · simp only [Result.ok.injEq, Prod.mk.injEq, and_true] at hres
      rw [hres.2]

theorem Clear_list_size {α : Type} (fuel : Nat) (h h2 : Heap α) (l l2 : SingleLinkedList)
    (hres : Clear fuel h l = Result.ok (h2, l2) ()) : l2.size_ = l.size_ := by
  induction fuel generalizing h l with
  | zero => simp [Clear] at hres
  | succ f ih =>
    simp only [Clear] at hres
    split at hres
    · split at hres
      · cases hres
      · split at hres
        · cases hres
        · have hi := ih _ _ hres
          exact hi
    · simp only [Result.ok.injEq, Prod.mk.injEq, and_true] at hres
      rw [hres.2]

/-- Whatever the source list, a list the copy constructor returns has `size_ == 0`. -/
theorem CopyCtor_size {α : Type} [Inhabited α] (elemNext : α → Bool) (g fuel : Nat)
    (h : Heap α) (other : SingleLinkedList) (h2 : Heap α) (c : SingleLinkedList)
    (hres : CopyCtor elemNext g fuel h other = Result.ok h2 c) : c.size_ = 0 := by
  unfold CopyCtor at hres
  split at hres
  · simp only [Result.ok.injEq] at hres
    rw [← hres.2]
  · simp only [Result.andThen] at hres
    split at hres
    · rename_i s x hloop
      split at hres
      · simp only [Result.ok.injEq] at hres
        rw [← hres.2]
        obtain ⟨hs, ls⟩ := s
        have := CopyLoop_size elemNext other fuel _ _ _ _ hs ls hloop
        simpa [swap, mkEmpty] using this
      all_goals cases hres
    all_goals cases hres

/-- C11 (the code departs from the claim): for every list `L` with `GetSize() != 0` on
which the copy constructor returns, the copy has `GetSize() == 0`, so `copy == L` stops at
the comparison of the sizes and returns false. -/
theorem C11_copy_compares_unequal {α : Type} [Inhabited α] (elemNext : α → Bool)
    (eq : α → α → Bool) (g fuel fuel2 : Nat) (h h2 : Heap α) (L c : SingleLinkedList)
    (hcopy : CopyCtor elemNext g fuel h L = Result.ok h2 c) (hne : IsEmpty L = false) :
    GetSize c = 0 ∧ operator_eq eq fuel2 h2 c L = some false := by
  have hc : c.size_ = 0 := CopyCtor_size elemNext g fuel h L h2 c hcopy
  have hL : L.size_ ≠ 0 := by simpa [IsEmpty] using hne
  refine ⟨hc, ?_⟩
  have hcl : c.size_ ≠ L.size_ := by
    rw [hc]
    exact fun e => hL e.symm
  simp only [operator_eq, ne_eq, hcl, not_false_eq_true, ↓reduceIte]

/-- The failing input of C11: the one-element list `{elemA}` and its copy, which iterates
the same single element but has `GetSize() == 0` and compares unequal to the original. -/
theorem C11_copy_compares_unequal_witness :
    CopyCtor Elem.hasNext 7 3 exA.1 exA.2
        = Result.ok [some ⟨elemA, Ptr.null⟩, some ⟨elemA, Ptr.null⟩] ⟨Ptr.node 1, 0⟩
      ∧ IsEmpty exA.2 = false
      ∧ toList 2 exA.1 exA.2 = some [elemA]
      ∧ toList 2 [some ⟨elemA, Ptr.null⟩, some ⟨elemA, Ptr.null⟩] ⟨Ptr.node 1, 0⟩
          = some [elemA]
      ∧ GetSize (⟨Ptr.node 1, 0⟩ : SingleLinkedList) = 0
      ∧ operator_eq elemEq 3 [some ⟨elemA, Ptr.null⟩, some ⟨elemA, Ptr.null⟩]
          ⟨Ptr.node 1, 0⟩ exA.2 = some false :=
  ⟨by decide, by decide, by decide, by decide,
    C11_copy_compares_unequal Elem.hasNext elemEq 7 3 3 exA.1 _ exA.2 _ (by decide)
      (by decide)⟩

/-- C12 (the code departs from the claim): (1) the list `{elemA}` emptied by `Clear()`
iterates nothing but keeps `size_ == 1`, and its copy has one value-initialised node;
(2) the copy of `{elemA}` iterates `elemA` but has `size_ == 0`, and the copy made
from that copy has no node at all. -/
theorem C12_copy_of_cleared_list_and_of_copy :
    (∃ h1 l1 h2 c, Clear 2 exA.1 exA.2 = Result.ok (h1, l1) ()
        ∧ toList 1 h1 l1 = some []
        ∧ CopyCtor Elem.hasNext 7 3 h1 l1 = Result.ok h2 c
        ∧ toList 2 h2 c = some [(default : Elem)])
      ∧ (∃ h1 c1 h2 c2, CopyCtor Elem.hasNext 7 3 exA.1 exA.2 = Result.ok h1 c1
        ∧ toList 2 h1 c1 = some [elemA]
        ∧ CopyCtor Elem.hasNext 7 3 h1 c1 = Result.ok h2 c2
        ∧ toList 2 h2 c1 = some [elemA]
        ∧ toList 2 h2 c2 = some []) :=
  ⟨⟨[none], ⟨Ptr.null, 1⟩, [none, some ⟨default, Ptr.null⟩], ⟨Ptr.node 1, 0⟩,
      by decide, by decide, by decide, by decide⟩,
    ⟨[some ⟨elemA, Ptr.null⟩, some ⟨elemA, Ptr.null⟩], ⟨Ptr.node 1, 0⟩,
      [some ⟨elemA, Ptr.null⟩, some ⟨elemA, Ptr.null⟩], ⟨Ptr.null, 0⟩,
      by decide, by decide, by decide, by decide, by decide⟩⟩

/-- C13 (the code departs from the claim): the length of the copy follows the member
`next_node` of the elements, not the links of the source.  (1) For `L = {elemB}`, whose
element has a non-null `next_node`, the copy `C` gets a second, value-initialised node:
after `C.PushFront(elemA)` it iterates `elemA, elemB, Elem()` and not `elemA, elemB`,
while `L` still iterates `elemB` with `GetSize() == 1`.  (2) For `L = {elemA, elemA}`,
whose first element has a null `next_node`, the loop assigns through the null `it_tail`:
the behaviour of the copy constructor is undefined.  (3) For `L = {elemB, elemA}`, where
the members happen to agree with the links, `C.PushFront(elemC)` iterates
`elemC, elemB, elemA` and `L` is unchanged. -/
theorem C13_copy_length_follows_element_member :
    (∃ h1 c, toList 2 exB.1 exB.2 = some [elemB]
        ∧ CopyCtor Elem.hasNext 7 3 exB.1 exB.2 = Result.ok h1 c
        ∧ toList 4 (PushFront h1 c elemA).1 (PushFront h1 c elemA).2
            = some [elemA, elemB, default]
        ∧ toList 4 (PushFront h1 c elemA).1 exB.2 = some [elemB]
        ∧ GetSize exB.2 = 1)
      ∧ (toList 3 exAA.1 exAA.2 = some [elemA, elemA]
        ∧ CopyCtor Elem.hasNext 7 5 exAA.1 exAA.2 = Result.ub)
      ∧ (∃ h1 c, toList 3 exBA.1 exBA.2 = some [elemB, elemA]
        ∧ CopyCtor Elem.hasNext 7 4 exBA.1 exBA.2 = Result.ok h1 c
        ∧ toList 4 (PushFront h1 c elemC).1 (PushFront h1 c elemC).2
            = some [elemC, elemB, elemA]
        ∧ toList 4 (PushFront h1 c elemC).1 exBA.2 = some [elemB, elemA]
        ∧ GetSize exBA.2 = 2) :=
  ⟨⟨[some ⟨elemB, Ptr.null⟩, some ⟨elemB, Ptr.node 2⟩, some ⟨default, Ptr.null⟩],
      ⟨Ptr.node 1, 0⟩, by decide, by decide, by decide, by decide, by decide⟩,
    ⟨by decide, by decide⟩,
    ⟨[some ⟨elemA, Ptr.null⟩, some ⟨elemB, Ptr.node 0⟩, some ⟨elemB, Ptr.node 3⟩,
        some ⟨elemA, Ptr.null⟩],
      ⟨Ptr.node 2, 0⟩, by decide, by decide, by decide, by decide, by decide⟩⟩

/-- C19 (the code departs from the claim): with `a = {elemC}` and `b = {elemA}`, after
`a = b` the list `a` iterates `elemA` and `b` is unchanged, but `a.GetSize()` is 0, not 1,
and `a == b` returns false. -/
theorem C19_assignment_gives_zero_size :
    ∃ h2 a2, toList 2 exCA.1 exCA.2.1 = some [elemC]
      ∧ toList 2 exCA.1 exCA.2.2 = some [elemA]
      ∧ operator_assign Elem.hasNext 7 3 exCA.1 exCA.2.1 exCA.2.2 = Result.ok h2 a2
      ∧ toList 2 h2 a2 = some [elemA]
      ∧ GetSize a2 = 0
      ∧ operator_eq elemEq 3 h2 a2 exCA.2.2 = some false
      ∧ toList 2 h2 exCA.2.2 = some [elemA]
      ∧ GetSize exCA.2.2 = 1 :=
  ⟨[none, some ⟨elemA, Ptr.null⟩, some ⟨elemA, Ptr.null⟩], ⟨Ptr.node 2, 0⟩,
    by decide, by decide, by decide, by decide, by decide, by decide, by decide, by decide⟩

end SingleLinkedList
